import Mathlib

/-!
Verification of the VimeoGrabber-CLI repository (four Python source files:
`vimeo_dl_cli.py`, `vimeo_downloader.py`, `vimeo_ytdl.py`, `vimeograb_core.py`)
against its natural-language specification.

The development shallowly embeds the URL-to-stream resolution pipeline:

* a `Json` model of the player-configuration documents,
* Python container/semantics helpers (`in`, indexing, `.get`, truthiness,
  exceptions modelled with `Except PyErr`),
* `VimeoDownloaderCLI.parse_vimeo_url` / `VimeoDownloader.parse_vimeo_url`
  (URL resolvers of the CLI and GUI variants),
* `build_config_url` of both variants (with `urllib.parse.quote_plus`),
* `extract_streams` of both variants,
* the quality-selection logic of `VimeoDownloaderCLI.download_video`
  (Python's stable `list.sort` modelled by a stable insertion sort),
* the streaming `download_file` of both variants as state machines over a
  chunk-event stream, and
* the orchestration of `download_video` of both variants as request traces
  against an abstract HTTP oracle.

All definitions are executable; theorems relate them to independently stated
specification-side functions.
-/

/-- A JSON value, as decoded by Python's `response.json()`: objects are
insertion-ordered key/value pair lists (CPython dicts preserve insertion
order), numbers are integers (the fields relevant to this program - heights,
widths - are integral). -/
inductive Json where
  | null
  | bool (b : Bool)
  | num (n : Int)
  | str (s : String)
  | arr (xs : List Json)
  | obj (kvs : List (String × Json))
deriving Repr

mutual

/-- Structural equality of JSON values (used to model Python `==`/set
membership on the url values handled by `extract_streams`; on the string
urls this program compares, Python equality coincides with structural
equality). -/
def Json.beq : Json → Json → Bool
  | .null, .null => true
  | .bool a, .bool b => a == b
  | .num a, .num b => a == b
  | .str a, .str b => a == b
  | .arr xs, .arr ys => Json.beqArr xs ys
  | .obj xs, .obj ys => Json.beqObj xs ys
  | _, _ => false

/-- Elementwise equality of JSON arrays. -/
def Json.beqArr : List Json → List Json → Bool
  | [], [] => true
  | a :: as, b :: bs => Json.beq a b && Json.beqArr as bs
  | _, _ => false

/-- Pairwise equality of JSON object field lists. -/
def Json.beqObj : List (String × Json) → List (String × Json) → Bool
  | [], [] => true
  | (k1, v1) :: as, (k2, v2) :: bs => k1 == k2 && Json.beq v1 v2 && Json.beqObj as bs
  | _, _ => false

end

/-- Python exceptions that the embedded code can raise. -/
inductive PyErr where
  | typeError
  | attrError
  | keyError
  | idxError
  | valueError
deriving DecidableEq, Repr

/-- First value bound to key `k` in an object field list (CPython dict
lookup; field lists produced by a real JSON decoder have unique keys, and
every helper below consistently uses the first binding). -/
def jlookup (kvs : List (String × Json)) (k : String) : Option Json :=
  match kvs with
  | [] => none
  | (k', v) :: rest => if k' == k then some v else jlookup rest k

/-- Whether an object field list binds key `k`. -/
def jhasKey (kvs : List (String × Json)) (k : String) : Bool :=
  kvs.any (fun p => p.1 == k)

/-- Python `d[k]` on a JSON value: field lookup on dicts (KeyError when
absent), TypeError on anything else (string/list indices must be integers,
scalars are not subscriptable). -/
def pyGetItem (v : Json) (k : String) : Except PyErr Json :=
  match v with
  | .obj kvs =>
    match jlookup kvs k with
    | some w => .ok w
    | none => .error .keyError
  | _ => .error .typeError

/-- Python `d.get(k, default)` on a JSON value: only dicts have `.get`
(AttributeError otherwise). -/
def pyGetDefault (v : Json) (k : String) (d : Json) : Except PyErr Json :=
  match v with
  | .obj kvs => .ok ((jlookup kvs k).getD d)
  | _ => .error .attrError

/-- Python `k in v` for a string `k`: key test on dicts, membership on
lists, substring test on strings, TypeError on scalars. -/
def pyInStr (k : String) (v : Json) : Except PyErr Bool :=
  match v with
  | .obj kvs => .ok (jhasKey kvs k)
  | .arr xs => .ok (xs.any (fun x => Json.beq x (.str k)))
  | .str s => .ok (decide (k.data <:+: s.data))
  | _ => .error .typeError

/-- Python truthiness of a JSON value (`if x:`). -/
def pyTruthy (v : Json) : Bool :=
  match v with
  | .null => false
  | .bool b => b
  | .num n => n != 0
  | .str s => s ≠ ""
  | .arr xs => !xs.isEmpty
  | .obj kvs => !kvs.isEmpty

/-- Python truthiness of an optional string (`if h_param:`): present and
non-empty. -/
def pyTruthyStr (v : Option String) : Bool :=
  match v with
  | none => false
  | some s => s ≠ ""

/-- Python `str.isdigit` restricted to ASCII input: non-empty and all
characters are decimal digits. -/
def pyIsDigitStr (s : String) : Bool :=
  s ≠ "" && s.data.all Char.isDigit

/-- Value of `int(s)` on a string of ASCII decimal digits (the only inputs
the embedded code feeds to `int` are `isdigit`-guarded). -/
def digitsToNat (s : String) : Nat :=
  s.data.foldl (fun a c => a * 10 + (c.toNat - 48)) 0

/-! ## Quality selection (`VimeoDownloaderCLI.download_video`, lines 110-142)

The CLI sorts the stream list by the key `x.get('height', 0)` -
`list.sort(key=...)` first computes every key, then stable-sorts by
comparing keys with `<`.  A stable sort is extensionally unique, so CPython's
Timsort is modelled by a stable insertion sort; comparing two keys that are
not both numbers/bools or both strings raises TypeError (as in Python,
where it is not caught by the surrounding code). -/

/-- A sort key as Python sees it: the raw JSON `height` value, or the
`int` default `0` (modelled as `Json.num 0`) when absent. `.get` on a
non-dict raises AttributeError. -/
def getHeightKey (x : Json) : Except PyErr Json :=
  match x with
  | .obj kvs => .ok ((jlookup kvs "height").getD (.num 0))
  | _ => .error .attrError

/-- A JSON value as a Python `int` operand: ints are themselves, bools
coerce to 0/1. -/
def asIntOperand (v : Json) : Option Int :=
  match v with
  | .num n => some n
  | .bool b => some (if b then 1 else 0)
  | _ => none

/-- Python `a < b` on two sort keys: numeric comparison when both operands
are int-like, lexicographic on two strings, TypeError otherwise. -/
def pyLtKey (a b : Json) : Except PyErr Bool :=
  match asIntOperand a, asIntOperand b with
  | some x, some y => .ok (decide (x < y))
  | _, _ =>
    match a, b with
    | .str s, .str t => .ok (decide (s < t))
    | _, _ => .error .typeError

/-- Stable insertion of a (key, element) pair into an ascending-sorted
list: an element placed later keeps its position after equal keys that
were seen earlier. -/
def insertAscM (p : Json × Json) : List (Json × Json) → Except PyErr (List (Json × Json))
  | [] => .ok [p]
  | q :: rest => do
    let c ← pyLtKey q.1 p.1
    if c then
      let tail ← insertAscM p rest
      .ok (q :: tail)
    else
      .ok (p :: q :: rest)

/-- Stable ascending sort of (key, element) pairs (`list.sort(key=...)`). -/
def sortAscM : List (Json × Json) → Except PyErr (List (Json × Json))
  | [] => .ok []
  | p :: rest => do
    let sorted ← sortAscM rest
    insertAscM p sorted

/-- Stable insertion for the descending order (`reverse=True` keeps equal
keys in first-seen order). -/
def insertDescM (p : Json × Json) : List (Json × Json) → Except PyErr (List (Json × Json))
  | [] => .ok [p]
  | q :: rest => do
    let c ← pyLtKey p.1 q.1
    if c then
      let tail ← insertDescM p rest
      .ok (q :: tail)
    else
      .ok (p :: q :: rest)

/-- Stable descending sort of (key, element) pairs
(`list.sort(key=..., reverse=True)`). -/
def sortDescM : List (Json × Json) → Except PyErr (List (Json × Json))
  | [] => .ok []
  | p :: rest => do
    let sorted ← sortDescM rest
    insertDescM p sorted

/-- The `height` value used in the target-quality loop's arithmetic
`abs(stream.get('height', 0) - requested_height)`: absent heights count as
0; a non-int-like height makes the subtraction raise TypeError. -/
def heightArith (x : Json) : Except PyErr Int :=
  match x with
  | .obj kvs =>
    match jlookup kvs "height" with
    | none => .ok 0
    | some v =>
      match asIntOperand v with
      | some n => .ok n
      | none => .error .typeError
  | _ => .error .attrError

/-- `list.sort(key=...)` first evaluates the key function on every element
(`x.get('height', 0)`), pairing each element with its key. -/
def computeKeyed (streams : List Json) : Except PyErr (List (Json × Json)) :=
  streams.mapM (fun x => do
    let k ← getHeightKey x
    pure (k, x))

/-- The target-quality loop of the CLI (`closest_stream`/`min_diff` scan):
starting from `streams[0]`, walk the whole list and keep the first stream
whose `abs(height - n)` is strictly smaller than the running minimum. -/
def targetScan (n : Int) (s0 : Json) (streams : List Json) : Except PyErr (Json × Int) := do
  let k0 ← heightArith s0
  streams.foldlM
    (fun (acc : Json × Int) st => do
      let h ← heightArith st
      let d := |h - n|
      if d < acc.2 then pure (st, d) else pure acc)
    (s0, |k0 - n|)

/-- Quality selection of `VimeoDownloaderCLI.download_video`
(`vimeo_dl_cli.py` lines 110-142), as a function of the stream list and the
`quality` string.  Result `.ok none` is the graceful `return False` path
(only reachable when an IndexError on `streams[0]` is caught in the
target-quality branch); `.error e` is an uncaught Python exception.
`quality == 'best'` / `'worst'` sort and take the first element; any other
quality takes `int(quality)` when `quality.isdigit()` else `0` as the
target and scans for the first stream minimizing `abs(height - target)`. -/
def cliSelect (streams : List Json) (quality : String) : Except PyErr (Option Json) :=
  if quality == "best" then do
    let pairs ← computeKeyed streams
    let sorted ← sortDescM pairs
    match sorted with
    | [] => .error .idxError
    | p :: _ => .ok (some p.2)
  else if quality == "worst" then do
    let pairs ← computeKeyed streams
    let sorted ← sortAscM pairs
    match sorted with
    | [] => .error .idxError
    | p :: _ => .ok (some p.2)
  else
    let n : Int := if pyIsDigitStr quality then (digitsToNat quality : Int) else 0
    match streams with
    | [] => .ok none
    | s0 :: _ => do
      let r ← targetScan n s0 streams
      .ok (some r.1)

/-! ## Specification-side selection functions -/

/-- Specification-side: the first-seen element attaining the maximum key
(ties go to the earlier element). -/
def firstMaxBy (key : α → Int) : List α → Option α
  | [] => none
  | x :: xs =>
    some (match firstMaxBy key xs with
      | none => x
      | some m => if key m > key x then m else x)

/-- Specification-side: the first-seen element attaining the minimum key
(ties go to the earlier element). -/
def firstMinBy (key : α → Int) : List α → Option α
  | [] => none
  | x :: xs =>
    some (match firstMinBy key xs with
      | none => x
      | some m => if key m < key x then m else x)

/-- Specification-side height of a rendition: the declared `height` when it
is a number, else 0 (absent heights participate in the arithmetic as 0). -/
def jheight (s : Json) : Int :=
  match s with
  | .obj kvs =>
    match jlookup kvs "height" with
    | some (.num n) => n
    | _ => 0
  | _ => 0

/-- A rendition record as the quality selector expects it: a JSON object
whose `height` field, when present, is a number. -/
def HeightWF (s : Json) : Prop :=
  (∃ kvs, s = .obj kvs) ∧
    (∀ v, (match s with | .obj kvs => jlookup kvs "height" | _ => none) = some v →
      ∃ n, v = .num n)

/-! ### Pure counterparts of the stable sorts, and selection lemmas -/

/-- Pure stable descending insertion (same placement rule as
`insertDescM` when no comparison raises). -/
def insertDescP (key : α → Int) (a : α) : List α → List α
  | [] => [a]
  | b :: bs => if key a < key b then b :: insertDescP key a bs else a :: b :: bs

/-- Pure stable descending sort. -/
def sortDescP (key : α → Int) : List α → List α
  | [] => []
  | x :: xs => insertDescP key x (sortDescP key xs)

/-- Pure stable ascending insertion. -/
def insertAscP (key : α → Int) (a : α) : List α → List α
  | [] => [a]
  | b :: bs => if key b < key a then b :: insertAscP key a bs else a :: b :: bs

/-- Pure stable ascending sort. -/
def sortAscP (key : α → Int) : List α → List α
  | [] => []
  | x :: xs => insertAscP key x (sortAscP key xs)

/-- The integer under a (key, element) pair whose key is int-like. -/
def pairKey (p : Json × Json) : Int :=
  match asIntOperand p.1 with
  | some n => n
  | none => 0

theorem head_insertDescP (key : α → Int) (a : α) (l : List α) :
    (insertDescP key a l).head? =
      some (match l.head? with
        | none => a
        | some b => if key a < key b then b else a) := by
  cases l with
  | nil => rfl
  | cons b bs =>
    by_cases h : key a < key b
    · simp [insertDescP, h]
    · simp [insertDescP, h]

theorem head_sortDescP (key : α → Int) (l : List α) :
    (sortDescP key l).head? = firstMaxBy key l := by
  induction l with
  | nil => rfl
  | cons x xs ih =>
    rw [sortDescP, head_insertDescP, firstMaxBy, ← ih]

theorem head_insertAscP (key : α → Int) (a : α) (l : List α) :
    (insertAscP key a l).head? =
      some (match l.head? with
        | none => a
        | some b => if key b < key a then b else a) := by
  cases l with
  | nil => rfl
  | cons b bs =>
    by_cases h : key b < key a
    · simp [insertAscP, h]
    · simp [insertAscP, h]

theorem head_sortAscP (key : α → Int) (l : List α) :
    (sortAscP key l).head? = firstMinBy key l := by
  induction l with
  | nil => rfl
  | cons x xs ih =>
    rw [sortAscP, head_insertAscP, firstMinBy, ← ih]

theorem mem_insertDescP (key : α → Int) (a x : α) (l : List α) :
    x ∈ insertDescP key a l ↔ x = a ∨ x ∈ l := by
  induction l with
  | nil => simp [insertDescP]
  | cons b bs ih =>
    by_cases h : key a < key b
    · simp only [insertDescP, if_pos h, List.mem_cons, ih]
      tauto
    · simp only [insertDescP, if_neg h, List.mem_cons]

theorem mem_sortDescP (key : α → Int) (x : α) (l : List α) :
    x ∈ sortDescP key l ↔ x ∈ l := by
  induction l with
  | nil => simp [sortDescP]
  | cons b bs ih => simp [sortDescP, mem_insertDescP, ih]

theorem mem_insertAscP (key : α → Int) (a x : α) (l : List α) :
    x ∈ insertAscP key a l ↔ x = a ∨ x ∈ l := by
  induction l with
  | nil => simp [insertAscP]
  | cons b bs ih =>
    by_cases h : key b < key a
    · simp only [insertAscP, if_pos h, List.mem_cons, ih]
      tauto
    · simp only [insertAscP, if_neg h, List.mem_cons]

theorem mem_sortAscP (key : α → Int) (x : α) (l : List α) :
    x ∈ sortAscP key l ↔ x ∈ l := by
  induction l with
  | nil => simp [sortAscP]
  | cons b bs ih => simp [sortAscP, mem_insertAscP, ih]

theorem pyLtKey_intLike (a b : Json × Json)
    (ha : (asIntOperand a.1).isSome) (hb : (asIntOperand b.1).isSome) :
    pyLtKey a.1 b.1 = .ok (decide (pairKey a < pairKey b)) := by
  unfold pyLtKey pairKey
  cases h1 : asIntOperand a.1 with
  | none => simp [h1] at ha
  | some x =>
    cases h2 : asIntOperand b.1 with
    | none => simp [h2] at hb
    | some y => simp

theorem insertDescM_eq_pure (p : Json × Json) (l : List (Json × Json))
    (hp : (asIntOperand p.1).isSome) (hl : ∀ q ∈ l, (asIntOperand q.1).isSome) :
    insertDescM p l = .ok (insertDescP pairKey p l) := by
  induction l with
  | nil => rfl
  | cons q rest ih =>
    have hq : (asIntOperand q.1).isSome := hl q (by simp)
    have hrest : ∀ r ∈ rest, (asIntOperand r.1).isSome := fun r hr => hl r (by simp [hr])
    simp only [insertDescM, insertDescP, pyLtKey_intLike p q hp hq, bind, Except.bind]
    by_cases h : pairKey p < pairKey q
    · simp [h, ih hrest]
    · simp [h]

theorem sortDescM_eq_pure (l : List (Json × Json))
    (hl : ∀ q ∈ l, (asIntOperand q.1).isSome) :
    sortDescM l = .ok (sortDescP pairKey l) := by
  induction l with
  | nil => rfl
  | cons p rest ih =>
    have hp : (asIntOperand p.1).isSome := hl p (by simp)
    have hrest : ∀ r ∈ rest, (asIntOperand r.1).isSome := fun r hr => hl r (by simp [hr])
    have hsorted : ∀ r ∈ sortDescP pairKey rest, (asIntOperand r.1).isSome := by
      intro r hr
      exact hrest r ((mem_sortDescP pairKey r rest).mp hr)
    simp only [sortDescM, sortDescP, ih hrest, bind, Except.bind]
    exact insertDescM_eq_pure p _ hp hsorted

theorem insertAscM_eq_pure (p : Json × Json) (l : List (Json × Json))
    (hp : (asIntOperand p.1).isSome) (hl : ∀ q ∈ l, (asIntOperand q.1).isSome) :
    insertAscM p l = .ok (insertAscP pairKey p l) := by
  induction l with
  | nil => rfl
  | cons q rest ih =>
    have hq : (asIntOperand q.1).isSome := hl q (by simp)
    have hrest : ∀ r ∈ rest, (asIntOperand r.1).isSome := fun r hr => hl r (by simp [hr])
    simp only [insertAscM, insertAscP, pyLtKey_intLike q p hq hp, bind, Except.bind]
    by_cases h : pairKey q < pairKey p
    · simp [h, ih hrest]
    · simp [h]

theorem sortAscM_eq_pure (l : List (Json × Json))
    (hl : ∀ q ∈ l, (asIntOperand q.1).isSome) :
    sortAscM l = .ok (sortAscP pairKey l) := by
  induction l with
  | nil => rfl
  | cons p rest ih =>
    have hp : (asIntOperand p.1).isSome := hl p (by simp)
    have hrest : ∀ r ∈ rest, (asIntOperand r.1).isSome := fun r hr => hl r (by simp [hr])
    have hsorted : ∀ r ∈ sortAscP pairKey rest, (asIntOperand r.1).isSome := by
      intro r hr
      exact hrest r ((mem_sortAscP pairKey r rest).mp hr)
    simp only [sortAscM, sortAscP, ih hrest, bind, Except.bind]
    exact insertAscM_eq_pure p _ hp hsorted

/-- The (key, element) pair the CLI's sort builds for a well-formed
rendition. -/
def heightPair (s : Json) : Json × Json := (.num (jheight s), s)

theorem getHeightKey_wf (s : Json) (h : HeightWF s) :
    getHeightKey s = .ok (.num (jheight s)) := by
  obtain ⟨⟨kvs, rfl⟩, hnum⟩ := h
  cases hlk : jlookup kvs "height" with
  | none => simp [getHeightKey, jheight, hlk]
  | some v =>
    obtain ⟨n, rfl⟩ := hnum v hlk
    simp [getHeightKey, jheight, hlk]

theorem heightArith_wf (s : Json) (h : HeightWF s) :
    heightArith s = .ok (jheight s) := by
  obtain ⟨⟨kvs, rfl⟩, hnum⟩ := h
  cases hlk : jlookup kvs "height" with
  | none => simp [heightArith, jheight, hlk]
  | some v =>
    obtain ⟨n, rfl⟩ := hnum v hlk
    simp [heightArith, jheight, hlk, asIntOperand]

theorem mapM_heightPairs (l : List Json) (h : ∀ s ∈ l, HeightWF s) :
    computeKeyed l = .ok (l.map heightPair) := by
  unfold computeKeyed
  induction l with
  | nil => rfl
  | cons x xs ih =>
    have hx := getHeightKey_wf x (h x (by simp))
    have hxs := ih (fun s hs => h s (by simp [hs]))
    simp only [List.mapM_cons, List.map_cons, bind, Except.bind, pure, Except.pure] at hxs ⊢
    rw [hx, hxs]
    rfl

theorem pairKey_heightPair (s : Json) : pairKey (heightPair s) = jheight s := rfl

theorem firstMaxBy_mem (k : α → Int) (l : List α) (m : α) (h : firstMaxBy k l = some m) :
    m ∈ l := by
  induction l generalizing m with
  | nil => simp [firstMaxBy] at h
  | cons x xs ih =>
    rw [firstMaxBy] at h
    cases hm : firstMaxBy k xs with
    | none =>
      rw [hm] at h
      simp at h
      simp [h]
    | some m' =>
      rw [hm] at h
      simp at h
      by_cases hk : k m' > k x
      · rw [if_pos hk] at h
        subst h
        simp [ih m' hm]
      · rw [if_neg hk] at h
        simp [h.symm]

theorem firstMaxBy_congr (k1 k2 : α → Int) (l : List α) (h : ∀ x ∈ l, k1 x = k2 x) :
    firstMaxBy k1 l = firstMaxBy k2 l := by
  induction l with
  | nil => rfl
  | cons x xs ih =>
    have hx : k1 x = k2 x := h x (by simp)
    have hxs := ih (fun y hy => h y (by simp [hy]))
    rw [firstMaxBy, firstMaxBy, hxs]
    cases hm : firstMaxBy k2 xs with
    | none => rfl
    | some m =>
      have hmmem : m ∈ xs := firstMaxBy_mem k2 xs m hm
      show some (if k1 m > k1 x then m else x) = some (if k2 m > k2 x then m else x)
      rw [hx, h m (by simp [hmmem])]

theorem firstMinBy_mem (k : α → Int) (l : List α) (m : α) (h : firstMinBy k l = some m) :
    m ∈ l := by
  induction l generalizing m with
  | nil => simp [firstMinBy] at h
  | cons x xs ih =>
    rw [firstMinBy] at h
    cases hm : firstMinBy k xs with
    | none =>
      rw [hm] at h
      simp at h
      simp [h]
    | some m' =>
      rw [hm] at h
      simp at h
      by_cases hk : k m' < k x
      · rw [if_pos hk] at h
        subst h
        simp [ih m' hm]
      · rw [if_neg hk] at h
        simp [h.symm]

theorem firstMinBy_congr (k1 k2 : α → Int) (l : List α) (h : ∀ x ∈ l, k1 x = k2 x) :
    firstMinBy k1 l = firstMinBy k2 l := by
  induction l with
  | nil => rfl
  | cons x xs ih =>
    have hx : k1 x = k2 x := h x (by simp)
    have hxs := ih (fun y hy => h y (by simp [hy]))
    rw [firstMinBy, firstMinBy, hxs]
    cases hm : firstMinBy k2 xs with
    | none => rfl
    | some m =>
      have hmmem : m ∈ xs := firstMinBy_mem k2 xs m hm
      show some (if k1 m < k1 x then m else x) = some (if k2 m < k2 x then m else x)
      rw [hx, h m (by simp [hmmem])]

theorem firstMaxBy_map (g : α → β) (k : β → Int) (l : List α) :
    firstMaxBy k (l.map g) = Option.map g (firstMaxBy (fun x => k (g x)) l) := by
  induction l with
  | nil => rfl
  | cons x xs ih =>
    rw [List.map_cons, firstMaxBy, firstMaxBy, ih]
    cases firstMaxBy (fun x => k (g x)) xs with
    | none => rfl
    | some m =>
      show some (if k (g m) > k (g x) then g m else g x) =
        some (g (if k (g m) > k (g x) then m else x))
      rw [apply_ite g]

theorem firstMinBy_map (g : α → β) (k : β → Int) (l : List α) :
    firstMinBy k (l.map g) = Option.map g (firstMinBy (fun x => k (g x)) l) := by
  induction l with
  | nil => rfl
  | cons x xs ih =>
    rw [List.map_cons, firstMinBy, firstMinBy, ih]
    cases firstMinBy (fun x => k (g x)) xs with
    | none => rfl
    | some m =>
      show some (if k (g m) < k (g x) then g m else g x) =
        some (g (if k (g m) < k (g x) then m else x))
      rw [apply_ite g]

theorem firstMaxBy_isSome (k : α → Int) (l : List α) (h : l ≠ []) :
    ∃ m, firstMaxBy k l = some m := by
  cases l with
  | nil => exact absurd rfl h
  | cons x xs => exact ⟨_, rfl⟩

theorem firstMinBy_isSome (k : α → Int) (l : List α) (h : l ≠ []) :
    ∃ m, firstMinBy k l = some m := by
  cases l with
  | nil => exact absurd rfl h
  | cons x xs => exact ⟨_, rfl⟩

/-- The value the target-quality scan of the CLI keeps after comparing the
running minimum against a candidate list. -/
def pickMin (k : α → Int) (a : α) (o : Option α) : α :=
  match o with
  | none => a
  | some m => if k m < k a then m else a

theorem foldl_target_pickMin (k : α → Int) (l : List α) : ∀ a : α,
    (l.foldl (fun acc x => if k x < acc.2 then (x, k x) else acc) (a, k a)).1 =
      pickMin k a (firstMinBy k l) := by
  induction l with
  | nil =>
    intro a
    rfl
  | cons x xs ih =>
    intro a
    rw [List.foldl_cons, firstMinBy]
    dsimp only
    by_cases hx : k x < k a
    · rw [if_pos hx, ih x]
      cases hm : firstMinBy k xs with
      | none => simp [pickMin, hx]
      | some m =>
        simp only [pickMin]
        split_ifs <;> first | rfl | (exfalso; omega)
    · rw [if_neg hx, ih a]
      cases hm : firstMinBy k xs with
      | none => simp [pickMin, hx]
      | some m =>
        simp only [pickMin]
        split_ifs <;> first | rfl | (exfalso; omega)

theorem pickMin_firstMinBy_cons (k : α → Int) (x : α) (xs : List α) :
    some (pickMin k x (firstMinBy k (x :: xs))) = firstMinBy k (x :: xs) := by
  rw [firstMinBy]
  cases hm : firstMinBy k xs with
  | none => simp [pickMin]
  | some m =>
    simp only [pickMin]
    split_ifs <;> rfl

theorem exc_ok_bind (a : α) (f : α → Except ε β) : (Except.ok a >>= f : Except ε β) = f a := rfl

theorem foldlM_heights_eq_pure (n : Int) (l : List Json) (h : ∀ s ∈ l, HeightWF s) :
    ∀ acc : Json × Int,
    (l.foldlM (fun acc st => do
        let hv ← heightArith st
        let d := |hv - n|
        if d < acc.2 then pure (st, d) else pure acc) acc : Except PyErr (Json × Int)) =
      .ok (l.foldl (fun acc st =>
        if |jheight st - n| < acc.2 then (st, |jheight st - n|) else acc) acc) := by
  induction l with
  | nil =>
    intro acc
    rfl
  | cons x xs ih =>
    intro acc
    have hx := heightArith_wf x (h x (by simp))
    have ihx := ih (fun s hs => h s (by simp [hs]))
    rw [List.foldlM_cons, List.foldl_cons]
    simp only [hx, bind, Except.bind, pure, Except.pure]
    by_cases hc : |jheight x - n| < acc.2
    · simp only [if_pos hc]
      exact ihx _
    · simp only [if_neg hc]
      exact ihx _

theorem heightPair_keys_intLike (streams : List Json) :
    ∀ q ∈ streams.map heightPair, (asIntOperand q.1).isSome := by
  intro q hq
  obtain ⟨s, _, rfl⟩ := List.mem_map.mp hq
  simp [heightPair, asIntOperand]

theorem cliSelect_best_eq (streams : List Json) (hne : streams ≠ [])
    (hwf : ∀ s ∈ streams, HeightWF s) :
    cliSelect streams "best" = .ok (firstMaxBy jheight streams) := by
  have hpairs := mapM_heightPairs streams hwf
  have hsorteq := sortDescM_eq_pure (streams.map heightPair) (heightPair_keys_intLike streams)
  have hhead : (sortDescP pairKey (streams.map heightPair)).head? =
      Option.map heightPair (firstMaxBy jheight streams) := by
    rw [head_sortDescP, firstMaxBy_map heightPair pairKey streams,
      firstMaxBy_congr (fun x => pairKey (heightPair x)) jheight streams (fun x _ => rfl)]
  obtain ⟨m, hm⟩ := firstMaxBy_isSome jheight streams hne
  rw [hm] at hhead
  unfold cliSelect
  rw [hpairs]
  simp only [bind, Except.bind]
  rw [hsorteq]
  cases hsp : sortDescP pairKey (streams.map heightPair) with
  | nil => rw [hsp] at hhead; simp at hhead
  | cons p tl =>
    rw [hsp] at hhead
    simp only [List.head?] at hhead
    have hp : p = heightPair m := by
      simpa using hhead
    simp [hp, heightPair, hm]

theorem cliSelect_worst_eq (streams : List Json) (hne : streams ≠ [])
    (hwf : ∀ s ∈ streams, HeightWF s) :
    cliSelect streams "worst" = .ok (firstMinBy jheight streams) := by
  have hpairs := mapM_heightPairs streams hwf
  have hsorteq := sortAscM_eq_pure (streams.map heightPair) (heightPair_keys_intLike streams)
  have hhead : (sortAscP pairKey (streams.map heightPair)).head? =
      Option.map heightPair (firstMinBy jheight streams) := by
    rw [head_sortAscP, firstMinBy_map heightPair pairKey streams,
      firstMinBy_congr (fun x => pairKey (heightPair x)) jheight streams (fun x _ => rfl)]
  obtain ⟨m, hm⟩ := firstMinBy_isSome jheight streams hne
  rw [hm] at hhead
  unfold cliSelect
  rw [hpairs]
  simp only [bind, Except.bind]
  rw [hsorteq]
  cases hsp : sortAscP pairKey (streams.map heightPair) with
  | nil => rw [hsp] at hhead; simp at hhead
  | cons p tl =>
    rw [hsp] at hhead
    simp only [List.head?] at hhead
    have hp : p = heightPair m := by
      simpa using hhead
    simp [hp, heightPair, hm]

theorem cliSelect_target_eq (streams : List Json) (q : String)
    (hb : (q == "best") = false) (hw : (q == "worst") = false)
    (hne : streams ≠ []) (hwf : ∀ s ∈ streams, HeightWF s) :
    cliSelect streams q =
      .ok (firstMinBy
        (fun s => |jheight s - (if pyIsDigitStr q then (digitsToNat q : Int) else 0)|)
        streams) := by
  obtain ⟨s0, rest, rfl⟩ := List.exists_cons_of_ne_nil hne
  have hk0 := heightArith_wf s0 (hwf s0 (by simp))
  have hscan : targetScan (if pyIsDigitStr q then (digitsToNat q : Int) else 0) s0 (s0 :: rest) =
      .ok ((s0 :: rest).foldl
        (fun acc st =>
          if |jheight st - (if pyIsDigitStr q then (digitsToNat q : Int) else 0)| < acc.2 then
            (st, |jheight st - (if pyIsDigitStr q then (digitsToNat q : Int) else 0)|)
          else acc)
        (s0, |jheight s0 - (if pyIsDigitStr q then (digitsToNat q : Int) else 0)|)) := by
    unfold targetScan
    rw [hk0, exc_ok_bind]
    exact foldlM_heights_eq_pure _ (s0 :: rest) hwf _
  unfold cliSelect
  rw [hb, hw]
  simp only [Bool.false_eq_true, if_false]
  rw [hscan, exc_ok_bind]
  rw [foldl_target_pickMin (fun s =>
    |jheight s - (if pyIsDigitStr q then (digitsToNat q : Int) else 0)|) (s0 :: rest) s0]
  rw [pickMin_firstMinBy_cons]

/-- C3: for every non-empty rendition sequence (JSON objects whose
`height`, when present, is a number), CLI quality selection under `best`
returns the first-seen rendition of maximum height, under `worst` the
first-seen rendition of minimum height, and under a numeric target
quality `q` the first rendition minimizing `abs(height - int(q))`; a
rendition lacking a `height` field participates with height 0 rather than
being excluded. -/
theorem claim_C3_selection_policy (streams : List Json) (hne : streams ≠ [])
    (hwf : ∀ s ∈ streams, HeightWF s) :
    cliSelect streams "best" = .ok (firstMaxBy jheight streams) ∧
    cliSelect streams "worst" = .ok (firstMinBy jheight streams) ∧
    (∀ q : String, pyIsDigitStr q = true →
      cliSelect streams q =
        .ok (firstMinBy (fun s => |jheight s - (digitsToNat q : Int)|) streams)) := by
  refine ⟨cliSelect_best_eq streams hne hwf, cliSelect_worst_eq streams hne hwf, ?_⟩
  intro q hq
  have hb : (q == "best") = false := by
    apply beq_eq_false_iff_ne.mpr
    intro h
    subst h
    exact absurd hq (by decide)
  have hw : (q == "worst") = false := by
    apply beq_eq_false_iff_ne.mpr
    intro h
    subst h
    exact absurd hq (by decide)
  rw [cliSelect_target_eq streams q hb hw hne hwf]
  simp [hq]

/-- Fixture rendition list from the specification's testable properties:
144p, 360p and 1080p renditions in first-seen order. -/
def fixtureStreams : List Json :=
  [ .obj [("height", .num 144), ("url", .str "u144")],
    .obj [("height", .num 360), ("url", .str "u360")],
    .obj [("height", .num 1080), ("url", .str "u1080")] ]

theorem fixtureStreams_wf : ∀ s ∈ fixtureStreams, HeightWF s := by
  intro s hs
  simp only [fixtureStreams, List.mem_cons, List.not_mem_nil, or_false] at hs
  rcases hs with rfl | rfl | rfl <;>
    · refine ⟨⟨_, rfl⟩, ?_⟩
      intro v hv
      have := hv.symm.trans (rfl : jlookup _ "height" = _)
      exact ⟨_, by injection hv with h; exact h.symm⟩

/-- Witness for C3: on the `[144p, 360p, 1080p]` fixture, `best` picks the
1080p rendition, `worst` the 144p one, and target `500` the 360p one. -/
theorem claim_C3_selection_policy_witness :
    cliSelect fixtureStreams "best" = .ok (some (.obj [("height", .num 1080), ("url", .str "u1080")])) ∧
    cliSelect fixtureStreams "worst" = .ok (some (.obj [("height", .num 144), ("url", .str "u144")])) ∧
    cliSelect fixtureStreams "500" = .ok (some (.obj [("height", .num 360), ("url", .str "u360")])) := by
  obtain ⟨h1, h2, h3⟩ := claim_C3_selection_policy fixtureStreams
    (List.cons_ne_nil _ _) fixtureStreams_wf
  exact ⟨h1.trans (by rfl), h2.trans (by rfl), (h3 "500" (by decide)).trans (by rfl)⟩

/-- C10 (implicit): in the CLI downloader, a quality argument that is
neither `best` nor `worst` and not purely numeric (e.g. `720p`) is silently
treated as target height 0, so selection returns the first rendition of
minimum height (missing heights counted as 0) instead of failing or
falling back to best. -/
theorem claim_C10_nonnumeric_quality (streams : List Json) (q : String)
    (hne : streams ≠ []) (hwf : ∀ s ∈ streams, HeightWF s)
    (hnn : ∀ s ∈ streams, 0 ≤ jheight s)
    (hb : q ≠ "best") (hw : q ≠ "worst") (hd : pyIsDigitStr q = false) :
    cliSelect streams q = .ok (firstMinBy jheight streams) := by
  rw [cliSelect_target_eq streams q (beq_eq_false_iff_ne.mpr hb) (beq_eq_false_iff_ne.mpr hw)
    hne hwf]
  have hcongr : firstMinBy
      (fun s => |jheight s - (if pyIsDigitStr q then (digitsToNat q : Int) else 0)|) streams =
      firstMinBy jheight streams := by
    apply firstMinBy_congr
    intro s hs
    rw [hd]
    simp [abs_of_nonneg (hnn s hs)]
  rw [hcongr]

/-- Witness for C10: with quality `720p` on a list whose second rendition
has no height field, selection returns that height-less rendition (height
counted as 0, the minimum). -/
theorem claim_C10_nonnumeric_quality_witness :
    cliSelect
      [ .obj [("height", .num 360), ("url", .str "a")], .obj [("url", .str "b")] ]
      "720p" = .ok (some (.obj [("url", .str "b")])) := by
  have h := claim_C10_nonnumeric_quality
    [ .obj [("height", .num 360), ("url", .str "a")], .obj [("url", .str "b")] ]
    "720p" (List.cons_ne_nil _ _)
    (by
      intro s hs
      simp only [List.mem_cons, List.not_mem_nil, or_false] at hs
      rcases hs with rfl | rfl <;>
        · refine ⟨⟨_, rfl⟩, ?_⟩
          intro v hv
          first
          | exact ⟨_, by injection hv with h; exact h.symm⟩
          | exact absurd hv (by simp [jlookup])
    )
    (by
      intro s hs
      simp only [List.mem_cons, List.not_mem_nil, or_false] at hs
      rcases hs with rfl | rfl <;> decide)
    (by decide) (by decide) (by decide)
  exact h.trans (by rfl)

/-! ## Stream extraction (`extract_streams` of both variants)

`VimeoDownloaderCLI.extract_streams` (`vimeo_dl_cli.py` lines 320-381)
accumulates candidates from four probed shapes, detects (and only logs) an
HLS manifest and a master `config_url`, then de-duplicates by `url`.
`VimeoDownloader.extract_streams` (`vimeo_downloader.py` lines 403-445) is
identical minus the two log-only probes. -/

/-- Python iteration over a value (`list.extend(x)` iterates `x`): lists
yield elements, dicts yield their keys, strings yield 1-character strings,
scalars raise TypeError. -/
def pyIterate (v : Json) : Except PyErr (List Json) :=
  match v with
  | .arr xs => .ok xs
  | .obj kvs => .ok (kvs.map (fun p => .str p.1))
  | .str s => .ok (s.data.map (fun c => .str (String.mk [c])))
  | _ => .error .typeError

/-- `request.files.progressive` probe:
`if 'request' in config_data:` then
`if 'files' in req_data and 'progressive' in req_data['files']:`
then `streams.extend(req_data['files']['progressive'])`. -/
def branchProgressive (config : Json) : Except PyErr (List Json) := do
  let hasReq ← pyInStr "request" config
  if hasReq then
    let req ← pyGetItem config "request"
    let hasFiles ← pyInStr "files" req
    if hasFiles then
      let files ← pyGetItem req "files"
      let hasProg ← pyInStr "progressive" files
      if hasProg then
        let prog ← pyGetItem files "progressive"
        pyIterate prog
      else pure []
    else pure []
  else pure []

/-- `video.progressive_download` probe (guarded by its own truthiness
check before extending). -/
def branchProgDownload (config : Json) : Except PyErr (List Json) := do
  let hasVideo ← pyInStr "video" config
  if hasVideo then
    let video ← pyGetItem config "video"
    let hasPd ← pyInStr "progressive_download" video
    if hasPd then
      let pd ← pyGetItem video "progressive_download"
      if pyTruthy pd then pyIterate pd else pure []
    else pure []
  else pure []

/-- Whether a JSON value is a dict (`isinstance(item, dict)`). -/
def isObjV (v : Json) : Bool :=
  match v with
  | .obj _ => true
  | _ => false

/-- One item of the `mime` dict scan: extend with the value when the key
is exactly `video/mp4` and the value is a list. -/
def mimeStep (p : String × Json) (acc : List Json) : List Json :=
  match p.2 with
  | .arr xs => if p.1 == "video/mp4" then xs ++ acc else acc
  | _ => acc

/-- One item of the generic `request.files` scan: extend with any
non-empty all-dict list whose first element has a `url` and a `width` or
`height`. -/
def genStep (p : String × Json) (acc : List Json) : List Json :=
  match p.2 with
  | .arr (x :: xs) =>
    if (x :: xs).all isObjV then
      match x with
      | .obj o =>
        if jhasKey o "url" && (jhasKey o "width" || jhasKey o "height") then
          (x :: xs) ++ acc
        else acc
      | _ => acc
    else acc
  | _ => acc

/-- `request.files.mime` probe: iterate the `mime` dict's items and extend
with every list bound to the exact key `video/mp4` (`.items()` raises
AttributeError on a non-dict). -/
def branchMime (config : Json) : Except PyErr (List Json) := do
  let hasReq ← pyInStr "request" config
  if hasReq then
    let req ← pyGetItem config "request"
    let hasFiles ← pyInStr "files" req
    if hasFiles then
      let files ← pyGetItem req "files"
      let hasMime ← pyInStr "mime" files
      if hasMime then
        let mime ← pyGetItem files "mime"
        match mime with
        | .obj kvs => pure (kvs.foldr mimeStep [])
        | _ => .error .attrError
      else pure []
    else pure []
  else pure []

/-- The generic `request.files` probe: any non-empty list value whose
elements are all dicts and whose first element has a `url` key and a
`width` or `height` key is appended wholesale. -/
def branchGeneric (config : Json) : Except PyErr (List Json) := do
  let hasReq ← pyInStr "request" config
  if hasReq then
    let req ← pyGetItem config "request"
    let hasFiles ← pyInStr "files" req
    if hasFiles then
      let files ← pyGetItem req "files"
      match files with
      | .obj kvs => pure (kvs.foldr genStep [])
      | _ => .error .attrError
    else pure []
  else pure []

/-- The CLI's log-only HLS probe: `if 'hls' in file_info and 'url' in
file_info['hls']:` then read `file_info['hls']['url']` (printed, not
collected); the reads can still raise. -/
def hlsCheck (config : Json) : Except PyErr Unit := do
  let hasReq ← pyInStr "request" config
  if hasReq then
    let req ← pyGetItem config "request"
    let hasFiles ← pyInStr "files" req
    if hasFiles then
      let files ← pyGetItem req "files"
      let hasHls ← pyInStr "hls" files
      if hasHls then
        let hv ← pyGetItem files "hls"
        let hasUrl ← pyInStr "url" hv
        if hasUrl then
          let _ ← pyGetItem hv "url"
          pure ()
        else pure ()
      else pure ()
    else pure ()
  else pure ()

/-- The CLI's log-only master-config probe (`player.config_url`). -/
def masterCheck (config : Json) : Except PyErr Unit := do
  let hasPlayer ← pyInStr "player" config
  if hasPlayer then
    let pl ← pyGetItem config "player"
    let hasCu ← pyInStr "config_url" pl
    if hasCu then
      let _ ← pyGetItem pl "config_url"
      pure ()
    else pure ()
  else pure ()

/-- The accumulation phase shared by both `extract_streams` variants: the
four probes' candidates concatenated in source order. -/
def collectStreams (config : Json) : Except PyErr (List Json) := do
  let s1 ← branchProgressive config
  let s2 ← branchProgDownload config
  let s3 ← branchMime config
  let s4 ← branchGeneric config
  pure (s1 ++ s2 ++ s3 ++ s4)

/-- The de-duplication loop: keep a stream when `'url' in stream` and its
`url` value was not seen before (`seen_urls` set membership by Python
equality, modelled by structural equality `Json.beq`). -/
def dedupGo (seen : List Json) : List Json → Except PyErr (List Json)
  | [] => .ok []
  | st :: rest => do
    let hasUrl ← pyInStr "url" st
    if hasUrl then
      let u ← pyGetItem st "url"
      if seen.any (fun v => Json.beq v u) then
        dedupGo seen rest
      else do
        let tail ← dedupGo (u :: seen) rest
        .ok (st :: tail)
    else
      dedupGo seen rest

/-- `VimeoDownloaderCLI.extract_streams`: accumulate, run the two log-only
probes, de-duplicate. -/
def extractStreamsCLI (config : Json) : Except PyErr (List Json) := do
  let acc ← collectStreams config
  hlsCheck config
  masterCheck config
  dedupGo [] acc

/-- `VimeoDownloader.extract_streams` (GUI variant): accumulate and
de-duplicate, with no HLS/master probes. -/
def extractStreamsGUI (config : Json) : Except PyErr (List Json) := do
  let acc ← collectStreams config
  dedupGo [] acc

/-- The `url` value of a candidate, when it is a dict with a `url` key. -/
def jurl (s : Json) : Option Json :=
  match s with
  | .obj kvs => jlookup kvs "url"
  | _ => none

mutual

theorem json_beq_refl : ∀ v : Json, Json.beq v v = true
  | .null => rfl
  | .bool b => by simp [Json.beq]
  | .num n => by simp [Json.beq]
  | .str s => by simp [Json.beq]
  | .arr xs => by simp [Json.beq, json_beqArr_refl xs]
  | .obj kvs => by simp [Json.beq, json_beqObj_refl kvs]

theorem json_beqArr_refl : ∀ xs : List Json, Json.beqArr xs xs = true
  | [] => rfl
  | x :: rest => by simp [Json.beqArr, json_beq_refl x, json_beqArr_refl rest]

theorem json_beqObj_refl : ∀ kvs : List (String × Json), Json.beqObj kvs kvs = true
  | [] => rfl
  | (k, v) :: rest => by simp [Json.beqObj, json_beq_refl v, json_beqObj_refl rest]

end

theorem jhasKey_iff_jlookup (kvs : List (String × Json)) (k : String) :
    jhasKey kvs k = true ↔ ∃ v, jlookup kvs k = some v := by
  induction kvs with
  | nil => simp [jhasKey, jlookup]
  | cons p rest ih =>
    by_cases h : p.1 == k
    · constructor
      · intro _
        refine ⟨p.2, ?_⟩
        rw [show jlookup (p :: rest) k = if p.1 == k then some p.2 else jlookup rest k from by
          cases p; rfl]
        rw [if_pos h]
      · intro _
        simp [jhasKey, List.any_cons, h]
    · have hl : jlookup (p :: rest) k = jlookup rest k := by
        rw [show jlookup (p :: rest) k = if p.1 == k then some p.2 else jlookup rest k from by
          cases p; rfl]
        rw [if_neg (by simp_all)]
      have hk : jhasKey (p :: rest) k = jhasKey rest k := by
        simp [jhasKey, List.any_cons, h]
      rw [hl, hk, ih]

theorem pyGetItem_ok_jurl (st u : Json) (h : pyGetItem st "url" = .ok u) :
    jurl st = some u := by
  cases st <;> simp [pyGetItem] at h <;> try exact absurd h (by simp)
  case obj kvs =>
    cases hl : jlookup kvs "url" with
    | none => rw [hl] at h; exact absurd h (by simp)
    | some w =>
      rw [hl] at h
      simp at h
      simp [jurl, hl, h]

theorem jurl_pyInStr (st u : Json) (h : jurl st = some u) :
    pyInStr "url" st = .ok true := by
  cases st <;> simp [jurl] at h
  case obj kvs =>
    have : jhasKey kvs "url" = true := (jhasKey_iff_jlookup kvs "url").mpr ⟨u, h⟩
    simp [pyInStr, this]

/-- Full characterization of the de-duplication loop: when it succeeds,
every output element is a dict carrying a `url` whose value is not matched
in `seen`; the output is a subsequence of the input (first-seen order
preserved); output urls are pairwise distinct; and every input candidate
with a `url` is represented - either already matched by `seen`, or by an
output element with an equal url. -/
theorem dedupGo_spec (l : List Json) : ∀ (seen out : List Json),
    dedupGo seen l = .ok out →
    (∀ t ∈ out, ∃ u, jurl t = some u ∧ ∀ v ∈ seen, Json.beq v u = false) ∧
    out.Sublist l ∧
    List.Pairwise (fun a b => ∀ ua ub, jurl a = some ua → jurl b = some ub →
      Json.beq ua ub = false) out ∧
    (∀ s ∈ l, ∀ u, jurl s = some u →
      (∃ v ∈ seen, Json.beq v u = true) ∨
      (∃ t ∈ out, ∃ w, jurl t = some w ∧ Json.beq w u = true)) := by
  induction l with
  | nil =>
    intro seen out h
    simp only [dedupGo] at h
    injection h with h
    subst h
    exact ⟨by simp, List.Sublist.refl _, by simp, by simp⟩
  | cons st rest ih =>
    intro seen out h
    simp only [dedupGo, bind, Except.bind] at h
    cases hin : pyInStr "url" st with
    | error e => rw [hin] at h; exact absurd h (by simp)
    | ok hasUrl =>
      rw [hin] at h
      cases hasUrl with
      | false =>
        simp only [Bool.false_eq_true, if_false] at h
        obtain ⟨h1, h2, h3, h4⟩ := ih seen out h
        refine ⟨h1, h2.cons st, h3, ?_⟩
        intro s hs u hu
        rcases List.mem_cons.mp hs with rfl | hs'
        · rw [jurl_pyInStr s u hu] at hin
          exact absurd hin (by simp)
        · exact h4 s hs' u hu
      | true =>
        simp only [if_true] at h
        cases hget : pyGetItem st "url" with
        | error e => rw [hget] at h; exact absurd h (by simp)
        | ok u0 =>
          rw [hget] at h
          dsimp only at h
          have hju : jurl st = some u0 := pyGetItem_ok_jurl st u0 hget
          by_cases hseen : seen.any (fun v => Json.beq v u0) = true
          · rw [if_pos hseen] at h
            obtain ⟨h1, h2, h3, h4⟩ := ih seen out h
            refine ⟨h1, h2.cons st, h3, ?_⟩
            intro s hs u hu
            rcases List.mem_cons.mp hs with rfl | hs'
            · rw [hju] at hu
              injection hu with hu
              subst hu
              obtain ⟨v, hv, hbeq⟩ := List.any_eq_true.mp hseen
              exact Or.inl ⟨v, hv, hbeq⟩
            · exact h4 s hs' u hu
          · rw [if_neg hseen] at h
            cases htail : dedupGo (u0 :: seen) rest with
            | error e => rw [htail] at h; exact absurd h (by simp)
            | ok tail =>
              rw [htail] at h
              simp only [Except.ok.injEq] at h
              subst h
              obtain ⟨h1, h2, h3, h4⟩ := ih (u0 :: seen) tail htail
              have hseen' : ∀ v ∈ seen, Json.beq v u0 = false := by
                intro v hv
                by_contra hc
                rw [Bool.not_eq_false] at hc
                exact hseen (List.any_eq_true.mpr ⟨v, hv, hc⟩)
              refine ⟨?_, h2.cons₂ st, ?_, ?_⟩
              · intro t ht
                rcases List.mem_cons.mp ht with rfl | ht'
                · exact ⟨u0, hju, hseen'⟩
                · obtain ⟨u, hu, hall⟩ := h1 t ht'
                  exact ⟨u, hu, fun v hv => hall v (by simp [hv])⟩
              · refine List.Pairwise.cons ?_ h3
                intro t ht ua ub hua hub
                rw [hju] at hua
                injection hua with hua
                subst hua
                obtain ⟨u, hu, hall⟩ := h1 t ht
                rw [hu] at hub
                injection hub with hub
                subst hub
                exact hall u0 (by simp)
              · intro s hs u hu
                rcases List.mem_cons.mp hs with rfl | hs'
                · rw [hju] at hu
                  injection hu with hu
                  subst hu
                  exact Or.inr ⟨_, List.mem_cons_self _ _, _, hju, json_beq_refl _⟩
                · rcases h4 s hs' u hu with ⟨v, hv, hbeq⟩ | ⟨t, ht, w, hw, hbeq⟩
                  · rcases List.mem_cons.mp hv with rfl | hv'
                    · exact Or.inr ⟨_, List.mem_cons_self _ _, _, hju, hbeq⟩
                    · exact Or.inl ⟨v, hv', hbeq⟩
                  · exact Or.inr ⟨t, by simp [ht], w, hw, hbeq⟩

theorem extractCLI_ok_parts (doc : Json) (out : List Json)
    (h : extractStreamsCLI doc = .ok out) :
    ∃ acc, collectStreams doc = .ok acc ∧ dedupGo [] acc = .ok out := by
  unfold extractStreamsCLI at h
  simp only [bind, Except.bind] at h
  cases hacc : collectStreams doc with
  | error e => rw [hacc] at h; exact absurd h (by simp)
  | ok acc =>
    rw [hacc] at h
    cases hhls : hlsCheck doc with
    | error e => rw [hhls] at h; exact absurd h (by simp)
    | ok u1 =>
      rw [hhls] at h
      cases hmaster : masterCheck doc with
      | error e => rw [hmaster] at h; exact absurd h (by simp)
      | ok u2 => rw [hmaster] at h; exact ⟨acc, rfl, h⟩

theorem extractGUI_ok_parts (doc : Json) (out : List Json)
    (h : extractStreamsGUI doc = .ok out) :
    ∃ acc, collectStreams doc = .ok acc ∧ dedupGo [] acc = .ok out := by
  unfold extractStreamsGUI at h
  simp only [bind, Except.bind] at h
  cases hacc : collectStreams doc with
  | error e => rw [hacc] at h; exact absurd h (by simp)
  | ok acc => rw [hacc] at h; exact ⟨acc, rfl, h⟩

/-- C4: whenever `extract_streams` (either variant) returns a rendition
list for a JSON configuration document, every returned candidate carries a
`url` key, the url values are pairwise distinct, the output preserves
first-discovery order (it is a subsequence of the accumulated candidates
across the probed shapes), and every accumulated candidate with a `url` -
in particular the same url discovered under two different shapes - is
represented by exactly one output rendition with that url. -/
theorem claim_C4_extract_dedup (doc : Json) (out : List Json)
    (h : extractStreamsCLI doc = .ok out ∨ extractStreamsGUI doc = .ok out) :
    (∀ t ∈ out, ∃ u, jurl t = some u) ∧
    List.Pairwise (fun a b => ∀ ua ub, jurl a = some ua → jurl b = some ub →
      Json.beq ua ub = false) out ∧
    (∃ acc, collectStreams doc = .ok acc ∧ out.Sublist acc ∧
      ∀ s ∈ acc, ∀ u, jurl s = some u →
        ∃ t ∈ out, ∃ w, jurl t = some w ∧ Json.beq w u = true) := by
  have hparts : ∃ acc, collectStreams doc = .ok acc ∧ dedupGo [] acc = .ok out := by
    rcases h with h | h
    · exact extractCLI_ok_parts doc out h
    · exact extractGUI_ok_parts doc out h
  obtain ⟨acc, hacc, hded⟩ := hparts
  obtain ⟨h1, h2, h3, h4⟩ := dedupGo_spec acc [] out hded
  refine ⟨fun t ht => ⟨(h1 t ht).choose, (h1 t ht).choose_spec.1⟩, h3, acc, hacc, h2, ?_⟩
  intro s hs u hu
  rcases h4 s hs u hu with ⟨v, hv, _⟩ | hr
  · exact absurd hv (List.not_mem_nil v)
  · exact hr

/-- Fixture document for C4: the same rendition url `u` appears both under
`request.files.progressive` and under `video.progressive_download`. -/
def doc4 : Json :=
  .obj [
    ("request", .obj [("files", .obj [("progressive",
      .arr [.obj [("url", .str "u"), ("height", .num 360)]])])]),
    ("video", .obj [("progressive_download",
      .arr [.obj [("url", .str "u"), ("height", .num 720)]])])]

/-- Witness for C4, applying the theorem at `doc4`: the extraction result
is the single first-seen rendition for url `u`. -/
theorem claim_C4_extract_dedup_witness :
    (∀ t ∈ [Json.obj [("url", .str "u"), ("height", .num 360)]], ∃ u, jurl t = some u) ∧
    List.Pairwise (fun a b => ∀ ua ub, jurl a = some ua → jurl b = some ub →
      Json.beq ua ub = false) [Json.obj [("url", .str "u"), ("height", .num 360)]] ∧
    (∃ acc, collectStreams doc4 = .ok acc ∧
      ([Json.obj [("url", .str "u"), ("height", .num 360)]]).Sublist acc ∧
      ∀ s ∈ acc, ∀ u, jurl s = some u →
        ∃ t ∈ [Json.obj [("url", .str "u"), ("height", .num 360)]],
          ∃ w, jurl t = some w ∧ Json.beq w u = true) :=
  claim_C4_extract_dedup doc4 [Json.obj [("url", .str "u"), ("height", .num 360)]]
    (Or.inl (by rfl))

/-! ## C9: the HLS entry of `request.files` -/

/-- The HLS manifest url of a configuration document: the `url` field of a
dict-valued `request.files.hls` entry (the shape the CLI's log-only probe
detects). -/
def hlsManifestUrl (config : Json) : Option Json :=
  match config with
  | .obj top =>
    match jlookup top "request" with
    | some (.obj r) =>
      match jlookup r "files" with
      | some (.obj f) =>
        match jlookup f "hls" with
        | some (.obj h) => jlookup h "url"
        | _ => none
      | _ => none
    | _ => none
  | _ => none

/-- Replace the value bound to the first occurrence of key `k`. -/
def replaceFirstVal (kvs : List (String × Json)) (k : String) (f : Json → Json) :
    List (String × Json) :=
  match kvs with
  | [] => []
  | (k', v) :: rest =>
    if k' == k then (k', f v) :: rest else (k', v) :: replaceFirstVal rest k f

/-- Drop every binding of key `k`. -/
def eraseKeyAll (kvs : List (String × Json)) (k : String) : List (String × Json) :=
  kvs.filter (fun p => !(p.1 == k))

/-- The document with the `request.files.hls` entry removed (identity on
documents without that path). -/
def removeHls (config : Json) : Json :=
  match config with
  | .obj top =>
    .obj (replaceFirstVal top "request" (fun req =>
      match req with
      | .obj rkvs =>
        .obj (replaceFirstVal rkvs "files" (fun files =>
          match files with
          | .obj fkvs => .obj (eraseKeyAll fkvs "hls")
          | other => other))
      | other => other))
  | other => other

theorem jlookup_replaceFirstVal_self (kvs : List (String × Json)) (k : String)
    (f : Json → Json) :
    jlookup (replaceFirstVal kvs k f) k = (jlookup kvs k).map f := by
  induction kvs with
  | nil => rfl
  | cons p rest ih =>
    obtain ⟨k', v⟩ := p
    by_cases h : k' == k
    · simp [replaceFirstVal, jlookup, h]
    · simp only [replaceFirstVal, jlookup, h, if_false, Bool.false_eq_true]
      exact ih

theorem jlookup_replaceFirstVal_ne (kvs : List (String × Json)) (k k' : String)
    (f : Json → Json) (h : k' ≠ k) :
    jlookup (replaceFirstVal kvs k f) k' = jlookup kvs k' := by
  induction kvs with
  | nil => rfl
  | cons p rest ih =>
    obtain ⟨k0, v⟩ := p
    by_cases h0 : k0 == k
    · have hk0 : k0 = k := by simpa using h0
      subst hk0
      have : (k0 == k') = false := by
        simp only [beq_eq_false_iff_ne]
        exact fun hc => h (hc ▸ rfl)
      simp [replaceFirstVal, jlookup, this]
    · simp only [replaceFirstVal, h0, Bool.false_eq_true, if_false, jlookup]
      by_cases h1 : k0 == k'
      · simp [h1]
      · simp only [h1, Bool.false_eq_true, if_false]
        exact ih

theorem jhasKey_replaceFirstVal (kvs : List (String × Json)) (k k' : String)
    (f : Json → Json) :
    jhasKey (replaceFirstVal kvs k f) k' = jhasKey kvs k' := by
  induction kvs with
  | nil => rfl
  | cons p rest ih =>
    obtain ⟨k0, v⟩ := p
    by_cases h0 : k0 == k
    · simp [replaceFirstVal, jhasKey, h0]
    · simp only [replaceFirstVal, h0, Bool.false_eq_true, if_false]
      simp only [jhasKey, List.any_cons] at ih ⊢
      rw [ih]

theorem jlookup_eraseKeyAll_ne (kvs : List (String × Json)) (k k' : String) (h : k' ≠ k) :
    jlookup (eraseKeyAll kvs k) k' = jlookup kvs k' := by
  induction kvs with
  | nil => rfl
  | cons p rest ih =>
    obtain ⟨k0, v⟩ := p
    by_cases h0 : k0 == k
    · have hk0 : k0 = k := by simpa using h0
      subst hk0
      have hne : (k0 == k') = false := by
        simp only [beq_eq_false_iff_ne]
        exact fun hc => h (hc ▸ rfl)
      simp only [eraseKeyAll, List.filter_cons, h0, Bool.not_true, Bool.false_eq_true,
        if_false, jlookup, hne]
      exact ih
    · simp only [eraseKeyAll, List.filter_cons, h0, Bool.not_false, if_true, jlookup]
      by_cases h1 : k0 == k'
      · simp [h1]
      · simp only [h1, Bool.false_eq_true, if_false]
        exact ih

theorem jhasKey_eraseKeyAll_ne (kvs : List (String × Json)) (k k' : String) (h : k' ≠ k) :
    jhasKey (eraseKeyAll kvs k) k' = jhasKey kvs k' := by
  induction kvs with
  | nil => rfl
  | cons p rest ih =>
    obtain ⟨k0, v⟩ := p
    by_cases h0 : k0 == k
    · have hk0 : k0 = k := by simpa using h0
      subst hk0
      have hne : (k0 == k') = false := by
        simp only [beq_eq_false_iff_ne]
        exact fun hc => h (hc ▸ rfl)
      simp only [eraseKeyAll, List.filter_cons, h0, Bool.not_true, Bool.false_eq_true,
        if_false, jhasKey, List.any_cons, hne, Bool.false_or]
      simpa [jhasKey, eraseKeyAll] using ih
    · simp only [eraseKeyAll, List.filter_cons, h0, Bool.not_false, if_true, jhasKey,
        List.any_cons]
      simp only [jhasKey, eraseKeyAll] at ih
      rw [ih]

theorem jhasKey_eraseKeyAll_self (kvs : List (String × Json)) (k : String) :
    jhasKey (eraseKeyAll kvs k) k = false := by
  induction kvs with
  | nil => rfl
  | cons p rest ih =>
    obtain ⟨k0, v⟩ := p
    by_cases h0 : k0 == k
    · simp only [eraseKeyAll, List.filter_cons, h0, Bool.not_true, Bool.false_eq_true, if_false]
      simpa [eraseKeyAll] using ih
    · simp only [eraseKeyAll, List.filter_cons, h0, Bool.not_false, if_true, jhasKey,
        List.any_cons, h0, Bool.false_or]
      simpa [jhasKey, eraseKeyAll] using ih

theorem jhasKey_eq_isSome (kvs : List (String × Json)) (k : String) :
    jhasKey kvs k = (jlookup kvs k).isSome := by
  induction kvs with
  | nil => rfl
  | cons p rest ih =>
    obtain ⟨k0, v⟩ := p
    by_cases h0 : k0 == k
    · simp [jhasKey, jlookup, List.any_cons, h0]
    · simp only [jhasKey, jlookup, List.any_cons, h0, Bool.false_or, Bool.false_eq_true,
        if_false]
      simpa [jhasKey] using ih

theorem branchProgressive_eval (top r f : List (String × Json))
    (hreq : jlookup top "request" = some (.obj r))
    (hfiles : jlookup r "files" = some (.obj f)) :
    branchProgressive (.obj top) =
      (match jlookup f "progressive" with
        | some prog => pyIterate prog
        | none => pure []) := by
  unfold branchProgressive
  simp only [pyInStr, pyGetItem, bind, Except.bind, jhasKey_eq_isSome, hreq, hfiles,
    Option.isSome_some, if_true]
  cases hp : jlookup f "progressive" with
  | none => simp
  | some prog => simp

theorem branchProgDownload_congr (a b : List (String × Json))
    (h : jlookup a "video" = jlookup b "video") :
    branchProgDownload (.obj a) = branchProgDownload (.obj b) := by
  unfold branchProgDownload
  simp only [pyInStr, pyGetItem, bind, Except.bind, jhasKey_eq_isSome, h]

theorem branchMime_eval (top r f : List (String × Json))
    (hreq : jlookup top "request" = some (.obj r))
    (hfiles : jlookup r "files" = some (.obj f)) :
    branchMime (.obj top) =
      (match jlookup f "mime" with
        | some (.obj m) => .ok (m.foldr mimeStep [])
        | some _ => .error .attrError
        | none => pure []) := by
  unfold branchMime
  simp only [pyInStr, pyGetItem, bind, Except.bind, jhasKey_eq_isSome, hreq, hfiles,
    Option.isSome_some, if_true]
  cases hp : jlookup f "mime" with
  | none => simp
  | some mv => cases mv <;> simp [pure, Except.pure]

theorem branchGeneric_eval (top r f : List (String × Json))
    (hreq : jlookup top "request" = some (.obj r))
    (hfiles : jlookup r "files" = some (.obj f)) :
    branchGeneric (.obj top) = .ok (f.foldr genStep []) := by
  unfold branchGeneric
  simp only [pyInStr, pyGetItem, bind, Except.bind, jhasKey_eq_isSome, hreq, hfiles,
    Option.isSome_some, if_true]
  rfl

theorem hlsCheck_eval (top r f : List (String × Json))
    (hreq : jlookup top "request" = some (.obj r))
    (hfiles : jlookup r "files" = some (.obj f)) :
    hlsCheck (.obj top) =
      (match jlookup f "hls" with
        | some hv => do
          let hasUrl ← pyInStr "url" hv
          if hasUrl then do
            let _ ← pyGetItem hv "url"
            pure ()
          else pure ()
        | none => pure ()) := by
  unfold hlsCheck
  simp only [pyInStr, pyGetItem, bind, Except.bind, jhasKey_eq_isSome, hreq, hfiles,
    Option.isSome_some, if_true]
  cases hp : jlookup f "hls" with
  | none => simp
  | some hv => simp

theorem hlsCheck_obj_ok (hv : List (String × Json)) :
    (do
      let hasUrl ← pyInStr "url" (Json.obj hv)
      if hasUrl then do
        let _ ← pyGetItem (Json.obj hv) "url"
        pure ()
      else pure () : Except PyErr Unit) = .ok () := by
  simp only [pyInStr, pyGetItem, bind, Except.bind, jhasKey_eq_isSome]
  cases hp : jlookup hv "url" with
  | none => simp [pure, Except.pure]
  | some u => simp [pure, Except.pure]

theorem masterCheck_congr (a b : List (String × Json))
    (h : jlookup a "player" = jlookup b "player") :
    masterCheck (.obj a) = masterCheck (.obj b) := by
  unfold masterCheck
  simp only [pyInStr, pyGetItem, bind, Except.bind, jhasKey_eq_isSome, h]

theorem genStep_foldr_eraseKeyAll (f : List (String × Json)) (k : String)
    (h : ∀ p ∈ f, p.1 = k → ∀ xs, p.2 ≠ Json.arr xs) :
    (eraseKeyAll f k).foldr genStep [] = f.foldr genStep [] := by
  induction f with
  | nil => rfl
  | cons p rest ih =>
    have hrest := ih (fun q hq => h q (by simp [hq]))
    by_cases h0 : p.1 == k
    · have hk : p.1 = k := by simpa using h0
      have hne : ∀ xs, p.2 ≠ Json.arr xs := h p (by simp) hk
      have hstep : genStep p (rest.foldr genStep []) = rest.foldr genStep [] := by
        unfold genStep
        cases hv : p.2 with
        | arr xs =>
          cases xs with
          | nil => rfl
          | cons x xs' => exact absurd hv (hne _)
        | null => rfl
        | bool b => rfl
        | num n => rfl
        | str s => rfl
        | obj o => rfl
      simp only [eraseKeyAll, List.filter_cons, h0, Bool.not_true, Bool.false_eq_true,
        if_false, List.foldr_cons, hstep]
      simpa [eraseKeyAll] using hrest
    · simp only [eraseKeyAll, List.filter_cons, h0, Bool.not_false, if_true, List.foldr_cons]
      simp only [eraseKeyAll] at hrest
      rw [hrest]

theorem jlookup_of_mem_nodup (kvs : List (String × Json)) (p : String × Json)
    (hp : p ∈ kvs) (hnd : (kvs.map Prod.fst).Nodup) : jlookup kvs p.1 = some p.2 := by
  induction kvs with
  | nil => exact absurd hp (List.not_mem_nil p)
  | cons q rest ih =>
    rcases List.mem_cons.mp hp with rfl | hp'
    · obtain ⟨k0, v0⟩ := p
      simp [jlookup]
    · rw [List.map_cons] at hnd
      obtain ⟨h1, hnd'⟩ := List.nodup_cons.mp hnd
      have hne : q.1 ≠ p.1 := by
        intro hc
        exact h1 (hc ▸ List.mem_map.mpr ⟨p, hp', rfl⟩)
      obtain ⟨k0, v0⟩ := q
      have : (k0 == p.1) = false := beq_eq_false_iff_ne.mpr hne
      simp only [jlookup, this, Bool.false_eq_true, if_false]
      exact ih hp' hnd'

theorem jlookup_eraseKeyAll_self (kvs : List (String × Json)) (k : String) :
    jlookup (eraseKeyAll kvs k) k = none := by
  have h := jhasKey_eraseKeyAll_self kvs k
  rw [jhasKey_eq_isSome] at h
  cases hl : jlookup (eraseKeyAll kvs k) k with
  | none => rfl
  | some v => rw [hl] at h; simp at h

/-- C9 (amended): removing a dict-shaped `request.files.hls` entry does
not change the extraction result at all - the HLS entry is only detected
and logged, and contributes no candidate of its own.  (As stated, the
claim fails only when the same url additionally appears under an
accumulated shape; see the counterexample.) -/
theorem claim_C9_hls_only_logged (top r f o : List (String × Json))
    (hreq : jlookup top "request" = some (.obj r))
    (hfiles : jlookup r "files" = some (.obj f))
    (hhls : jlookup f "hls" = some (.obj o))
    (hnodup : (f.map Prod.fst).Nodup) :
    extractStreamsCLI (removeHls (.obj top)) = extractStreamsCLI (.obj top) := by
  have hrm : removeHls (.obj top) =
      .obj (replaceFirstVal top "request" (fun req =>
        match req with
        | .obj rkvs =>
          .obj (replaceFirstVal rkvs "files" (fun files =>
            match files with
            | .obj fkvs => .obj (eraseKeyAll fkvs "hls")
            | other => other))
        | other => other)) := rfl
  set reqF : Json → Json := fun req =>
    match req with
    | .obj rkvs =>
      .obj (replaceFirstVal rkvs "files" (fun files =>
        match files with
        | .obj fkvs => .obj (eraseKeyAll fkvs "hls")
        | other => other))
    | other => other with hreqF
  set top' := replaceFirstVal top "request" reqF with htop'
  set r' := replaceFirstVal r "files" (fun files =>
    match files with
    | .obj fkvs => .obj (eraseKeyAll fkvs "hls")
    | other => other) with hr'
  set f' := eraseKeyAll f "hls" with hf'
  have hreq' : jlookup top' "request" = some (.obj r') := by
    rw [htop', jlookup_replaceFirstVal_self, hreq]
    rfl
  have hfiles' : jlookup r' "files" = some (.obj f') := by
    rw [hr', jlookup_replaceFirstVal_self, hfiles]
    rfl
  have e1 : branchProgressive (.obj top') = branchProgressive (.obj top) := by
    rw [branchProgressive_eval top' r' f' hreq' hfiles',
      branchProgressive_eval top r f hreq hfiles, hf',
      jlookup_eraseKeyAll_ne f "hls" "progressive" (by decide)]
  have e2 : branchProgDownload (.obj top') = branchProgDownload (.obj top) := by
    exact branchProgDownload_congr top' top
      (by rw [htop', jlookup_replaceFirstVal_ne top "request" "video" reqF (by decide)])
  have e3 : branchMime (.obj top') = branchMime (.obj top) := by
    rw [branchMime_eval top' r' f' hreq' hfiles',
      branchMime_eval top r f hreq hfiles, hf',
      jlookup_eraseKeyAll_ne f "hls" "mime" (by decide)]
  have e4 : branchGeneric (.obj top') = branchGeneric (.obj top) := by
    rw [branchGeneric_eval top' r' f' hreq' hfiles',
      branchGeneric_eval top r f hreq hfiles, hf',
      genStep_foldr_eraseKeyAll f "hls" ?_]
    intro p hp hk xs hv
    have := jlookup_of_mem_nodup f p hp hnodup
    rw [hk, hhls] at this
    injection this with hthis
    rw [hv] at hthis
    exact absurd hthis (by simp)
  have e5 : hlsCheck (.obj top') = hlsCheck (.obj top) := by
    rw [hlsCheck_eval top' r' f' hreq' hfiles', hlsCheck_eval top r f hreq hfiles, hhls,
      hf', jlookup_eraseKeyAll_self f "hls"]
    exact (hlsCheck_obj_ok o).symm
  have e6 : masterCheck (.obj top') = masterCheck (.obj top) := by
    exact masterCheck_congr top' top
      (by rw [htop', jlookup_replaceFirstVal_ne top "request" "player" reqF (by decide)])
  have ecollect : collectStreams (.obj top') = collectStreams (.obj top) := by
    unfold collectStreams
    rw [e1, e2, e3, e4]
  rw [hrm]
  unfold extractStreamsCLI
  rw [ecollect, e5, e6]

/-- Fixture for C9: the HLS manifest url `m` also appears as a progressive
rendition url. -/
def doc9 : Json :=
  .obj [("request", .obj [("files", .obj [
    ("progressive", .arr [.obj [("url", .str "m"), ("height", .num 360)]]),
    ("hls", .obj [("url", .str "m")])])])]

/-- Counterexample for C9 as stated: `doc9` contains an HLS entry with
manifest url `m`, yet extraction returns a rendition whose url is that
very `m` (the url also occurs under the progressive shape, and the claim
quantifies over the url, not over the entry). -/
theorem claim_C9_counterexample :
    hlsManifestUrl doc9 = some (.str "m") ∧
    extractStreamsCLI doc9 = .ok [.obj [("url", .str "m"), ("height", .num 360)]] ∧
    jurl (.obj [("url", .str "m"), ("height", .num 360)]) = some (.str "m") :=
  ⟨rfl, by rfl, rfl⟩

/-- Witness for the amended C9 theorem at `doc9`: removing the HLS entry
leaves the extraction result unchanged. -/
theorem claim_C9_hls_only_logged_witness :
    extractStreamsCLI (removeHls doc9) = extractStreamsCLI doc9 :=
  claim_C9_hls_only_logged
    [("request", .obj [("files", .obj [
      ("progressive", .arr [.obj [("url", .str "m"), ("height", .num 360)]]),
      ("hls", .obj [("url", .str "m")])])])]
    [("files", .obj [
      ("progressive", .arr [.obj [("url", .str "m"), ("height", .num 360)]]),
      ("hls", .obj [("url", .str "m")])])]
    [("progressive", .arr [.obj [("url", .str "m"), ("height", .num 360)]]),
      ("hls", .obj [("url", .str "m")])]
    [("url", .str "m")]
    rfl rfl rfl (by decide)

/-! ## URL machinery: `urllib.parse.quote_plus`, `unquote`, `parse_qs`,
`urlparse` - modelled at the character-list level. -/

/-- Python `str.strip()` whitespace set. -/
def isPyWs (c : Char) : Bool :=
  c = ' ' || c = '\t' || c = '\n' || c = '\r' || c = '\x0b' || c = '\x0c'

/-- Python `str.strip()`: drop leading and trailing whitespace. -/
def pyStripL (cs : List Char) : List Char :=
  ((cs.dropWhile isPyWs).reverse.dropWhile isPyWs).reverse

/-- Python `str.strip()` on strings. -/
def pyStrip (s : String) : String := ⟨pyStripL s.data⟩

/-- CPython's `_ALWAYS_SAFE` set for `quote`: ASCII letters, digits and
`_.-~` (with `quote_plus`'s default `safe=''`, nothing else is safe). -/
def isAlwaysSafe (c : Char) : Bool :=
  c.isAlpha || c.isDigit || c = '_' || c = '.' || c = '-' || c = '~'

/-- Uppercase hexadecimal digit for a value below 16. -/
def hexDigitUpper (n : Nat) : Char :=
  if n < 10 then Char.ofNat (48 + n) else Char.ofNat (55 + n)

/-- `%XX` encoding of one byte. -/
def percentEncodeByte (b : Nat) : List Char :=
  ['%', hexDigitUpper (b / 16), hexDigitUpper (b % 16)]

/-- UTF-8 encoding of one scalar value (as byte values). -/
def utf8Encode (c : Char) : List Nat :=
  let v := c.toNat
  if v < 0x80 then [v]
  else if v < 0x800 then [0xC0 + v / 64, 0x80 + v % 64]
  else if v < 0x10000 then [0xE0 + v / 4096, 0x80 + (v / 64) % 64, 0x80 + v % 64]
  else [0xF0 + v / 262144, 0x80 + (v / 4096) % 64, 0x80 + (v / 64) % 64, 0x80 + v % 64]

/-- `urllib.parse.quote_plus` on one character: safe characters pass,
space becomes `+`, everything else is percent-encoded per UTF-8 byte. -/
def quotePlusChar (c : Char) : List Char :=
  if isAlwaysSafe c then [c]
  else if c = ' ' then ['+']
  else ((utf8Encode c).map percentEncodeByte).flatten

/-- `urllib.parse.quote_plus` at the character level. -/
def quoteL (cs : List Char) : List Char :=
  (cs.map quotePlusChar).flatten

/-- `urllib.parse.quote_plus`. -/
def quotePlus (s : String) : String := ⟨quoteL s.data⟩

/-- Value of a hexadecimal digit character. -/
def hexVal (c : Char) : Option Nat :=
  if '0' ≤ c ∧ c ≤ '9' then some (c.toNat - 48)
  else if 'A' ≤ c ∧ c ≤ 'F' then some (c.toNat - 55)
  else if 'a' ≤ c ∧ c ≤ 'f' then some (c.toNat - 87)
  else none

/-- The `+` to space replacement `parse_qsl` applies before unquoting. -/
def plusToSpaceL (cs : List Char) : List Char :=
  cs.map (fun c => if c = '+' then ' ' else c)

/-- U+FFFD replacement character. -/
def fffd : Char := Char.ofNat 0xFFFD

mutual

/-- UTF-8 decoding of a byte run with replacement on errors - valid
encodings decode exactly; the replacement behaviour on invalid runs
(which only `errors='replace'` corner cases reach, never the output of
`quote_plus`) is a simplification of CPython's maximal-subsequence
rule. -/
def utf8DecodeReplace : List Nat → List Char
  | [] => []
  | b :: bs =>
    if b < 0x80 then Char.ofNat b :: utf8DecodeReplace bs
    else if 0xC2 ≤ b ∧ b ≤ 0xDF then utf8Dec2 b bs
    else if 0xE0 ≤ b ∧ b ≤ 0xEF then utf8Dec3 b bs
    else if 0xF0 ≤ b ∧ b ≤ 0xF4 then utf8Dec4 b bs
    else fffd :: utf8DecodeReplace bs

/-- Continuation of a 2-byte sequence. -/
def utf8Dec2 (b : Nat) : List Nat → List Char
  | b2 :: bs2 =>
    if 0x80 ≤ b2 ∧ b2 ≤ 0xBF then
      Char.ofNat ((b - 0xC0) * 64 + (b2 - 0x80)) :: utf8DecodeReplace bs2
    else fffd :: utf8DecodeReplace bs2
  | [] => [fffd]

/-- Continuation of a 3-byte sequence. -/
def utf8Dec3 (b : Nat) : List Nat → List Char
  | b2 :: b3 :: bs3 =>
    if (0x80 ≤ b2 ∧ b2 ≤ 0xBF) ∧ (0x80 ≤ b3 ∧ b3 ≤ 0xBF) then
      Char.ofNat ((b - 0xE0) * 4096 + (b2 - 0x80) * 64 + (b3 - 0x80)) ::
        utf8DecodeReplace bs3
    else fffd :: utf8DecodeReplace bs3
  | _ => [fffd]

/-- Continuation of a 4-byte sequence. -/
def utf8Dec4 (b : Nat) : List Nat → List Char
  | b2 :: b3 :: b4 :: bs4 =>
    if (0x80 ≤ b2 ∧ b2 ≤ 0xBF) ∧ (0x80 ≤ b3 ∧ b3 ≤ 0xBF) ∧ (0x80 ≤ b4 ∧ b4 ≤ 0xBF) then
      Char.ofNat ((b - 0xF0) * 262144 + (b2 - 0x80) * 4096 + (b3 - 0x80) * 64 +
        (b4 - 0x80)) :: utf8DecodeReplace bs4
    else fffd :: utf8DecodeReplace bs4
  | _ => [fffd]

end

/-- Scanner state of the percent-decoder: nothing pending, a lone `%`
seen, or `%h` seen (hex value and original character kept). -/
inductive PctSt where
  | idle
  | started
  | half (a : Nat) (c1 : Char)

/-- CPython `unquote` as a character automaton: maximal runs of valid
`%XX` triples are collected into a byte buffer (`pend`) and UTF-8-decoded
when the run ends; everything else passes through. -/
def unquoteScan : List Nat → PctSt → List Char → List Char
  | pend, .idle, [] => utf8DecodeReplace pend
  | pend, .started, [] => utf8DecodeReplace pend ++ ['%']
  | pend, .half _ c1, [] => utf8DecodeReplace pend ++ ['%', c1]
  | pend, .idle, c :: rest =>
    if c = '%' then unquoteScan pend .started rest
    else utf8DecodeReplace pend ++ c :: unquoteScan [] .idle rest
  | pend, .started, c :: rest =>
    match hexVal c with
    | some a => unquoteScan pend (.half a c) rest
    | none =>
      if c = '%' then utf8DecodeReplace pend ++ '%' :: unquoteScan [] .started rest
      else utf8DecodeReplace pend ++ '%' :: c :: unquoteScan [] .idle rest
  | pend, .half a c1, c :: rest =>
    match hexVal c with
    | some b => unquoteScan (pend ++ [16 * a + b]) .idle rest
    | none =>
      if c = '%' then utf8DecodeReplace pend ++ '%' :: c1 :: unquoteScan [] .started rest
      else utf8DecodeReplace pend ++ '%' :: c1 :: c :: unquoteScan [] .idle rest

/-- `unquote(nv.replace('+', ' '))`, as `parse_qsl` applies it. -/
def unquotePlusL (cs : List Char) : String := ⟨unquoteScan [] .idle (plusToSpaceL cs)⟩

/-- Split at the first occurrence of `sep` (`str.split(sep, 1)` when it
occurs); `none` when absent. -/
def splitFirstChar (sep : Char) : List Char → Option (List Char × List Char)
  | [] => none
  | c :: rest =>
    if c = sep then some ([], rest)
    else (splitFirstChar sep rest).map (fun p => (c :: p.1, p.2))

/-- `str.split(sep)` for a single-character separator (the empty string
yields one empty part). -/
def splitOnCh (sep : Char) : List Char → List (List Char)
  | [] => [[]]
  | c :: rest =>
    if c = sep then [] :: splitOnCh sep rest
    else
      match splitOnCh sep rest with
      | [] => [[c]]
      | p :: ps => (c :: p) :: ps

/-- `str.split('&')` (CPython `parse_qsl`'s separator split). -/
def splitOnAmp (cs : List Char) : List (List Char) := splitOnCh '&' cs

/-- `urllib.parse.parse_qsl` with default flags: parts without `=` or with
an empty value are dropped, names and values are plus-replaced then
unquoted. -/
def parseQslL (cs : List Char) : List (String × String) :=
  (splitOnAmp cs).foldr (fun part acc =>
    match splitFirstChar '=' part with
    | none => acc
    | some (n, v) => if v = [] then acc else (unquotePlusL n, unquotePlusL v) :: acc) []

/-- `parse_qsl` on strings. -/
def parseQsl (qs : String) : List (String × String) := parseQslL qs.data

/-- All values `parse_qs(qs)[key]` would hold. -/
def qsValues (qs : String) (key : String) : List String :=
  (parseQsl qs).filterMap (fun p => if p.1 = key then some p.2 else none)

/-- `parse_qs(qs)[key][0]` when the key is present (the only access the
resolvers perform, guarded by `if key in query_params`). -/
def qsFirst (qs : String) (key : String) : Option String :=
  (qsValues qs key).head?

/-- Result of `urllib.parse.urlparse` (the fields this program reads). -/
structure UrlParts where
  scheme : String
  netloc : String
  path : String
  query : String
  fragment : String
deriving Repr, DecidableEq

/-- Characters permitted in a URL scheme. -/
def isSchemeChar (c : Char) : Bool :=
  c.isAlpha || c.isDigit || c = '+' || c = '-' || c = '.'

/-- The netloc step of `urlsplit`: after `//`, the netloc extends to the
next `/`, `?` or `#`. -/
def splitNetloc : List Char → List Char × List Char
  | '/' :: '/' :: tail =>
    (tail.takeWhile (fun c => c ≠ '/' && c ≠ '?' && c ≠ '#'),
     tail.drop (tail.takeWhile (fun c => c ≠ '/' && c ≠ '?' && c ≠ '#')).length)
  | other => ([], other)

/-- `urllib.parse.urlsplit`/`urlparse` (without params splitting, which
this program never uses): scheme before a first `:` when the prefix is a
valid scheme, netloc after `//` up to `/?#`, fragment after the first `#`,
query after the first `?` of what remains. -/
def urlsplit (url : String) : UrlParts :=
  let cs := url.data
  let (scheme, rest1) :=
    match splitFirstChar ':' cs with
    | some (before, after) =>
      if !before.isEmpty && (match before.head? with
          | some c0 => c0.isAlpha
          | none => false) && before.all isSchemeChar then
        (before.map Char.toLower, after)
      else ([], cs)
    | none => ([], cs)
  let (netloc, rest2) := splitNetloc rest1
  let (rest3, fragment) :=
    match splitFirstChar '#' rest2 with
    | some (a, b) => (a, b)
    | none => (rest2, [])
  let (path, query) :=
    match splitFirstChar '?' rest3 with
    | some (a, b) => (a, b)
    | none => (rest3, [])
  ⟨⟨scheme⟩, ⟨netloc⟩, ⟨path⟩, ⟨query⟩, ⟨fragment⟩⟩

/-- The fixed player-emulation query parameters of
`VimeoDownloaderCLI.build_config_url` (`vimeo_dl_cli.py` lines 296-311),
in dict insertion order.  The `context` value is the Python literal
`'Vimeo%25FFFFFFC'`, i.e. `Vimeo%25FFFFFFC`. -/
def fixedParamsCLI : List (String × String) :=
  [("autopause", "0"), ("byline", "0"), ("collections", "0"),
   ("context", "Vimeo%25FFFFFFC"), ("default_to_hd", "1"), ("portrait", "0"),
   ("speed", "1"), ("title", "0"), ("transparent", "1"),
   ("app_id", "122963"), ("player_id", "player"), ("api", "1"), ("autoplay", "0")]

/-- The fixed parameters of `VimeoDownloader.build_config_url`
(`vimeo_downloader.py` lines 383-394): the GUI variant stops after
`transparent` and carries no `app_id`, `player_id`, `api` or `autoplay`. -/
def fixedParamsGUI : List (String × String) :=
  [("autopause", "0"), ("byline", "0"), ("collections", "0"),
   ("context", "Vimeo%25FFFFFFC"), ("default_to_hd", "1"), ("portrait", "0"),
   ("speed", "1"), ("title", "0"), ("transparent", "1")]

/-- `if token:` guarded insertion of a query parameter. -/
def tokenParam (k : String) (v : Option String) : List (String × String) :=
  match v with
  | some s => if s ≠ "" then [(k, s)] else []
  | none => []

/-- `'&'.join(parts)` at the character level. -/
def joinAmp : List (List Char) → List Char
  | [] => []
  | [p] => p
  | p :: ps => p ++ '&' :: joinAmp ps

/-- The query string `f"{k}={quote_plus(v)}"` pairs joined with `&`. -/
def encodeQuery (params : List (String × String)) : List Char :=
  joinAmp (params.map (fun p => p.1.data ++ '=' :: quoteL p.2.data))

/-- `build_config_url` shared shape: base path (with `unlock_hash` as an
extra path segment when truthy) plus the encoded parameters. -/
def buildConfigUrlWith (fixed : List (String × String)) (video_id : String)
    (unlock_hash h_param share_token : Option String) : String :=
  let base :=
    match unlock_hash with
    | some s =>
      if s ≠ "" then "https://player.vimeo.com/video/" ++ video_id ++ "/" ++ s ++ "/config"
      else "https://player.vimeo.com/video/" ++ video_id ++ "/config"
    | none => "https://player.vimeo.com/video/" ++ video_id ++ "/config"
  let params := tokenParam "h" h_param ++ tokenParam "share" share_token ++ fixed
  if params.isEmpty then base else base ++ "?" ++ ⟨encodeQuery params⟩

/-- `VimeoDownloaderCLI.build_config_url`. -/
def buildConfigUrlCLI (video_id : String)
    (unlock_hash h_param share_token : Option String) : String :=
  buildConfigUrlWith fixedParamsCLI video_id unlock_hash h_param share_token

/-- `VimeoDownloader.build_config_url` (GUI variant). -/
def buildConfigUrlGUI (video_id : String)
    (unlock_hash h_param share_token : Option String) : String :=
  buildConfigUrlWith fixedParamsGUI video_id unlock_hash h_param share_token


/-! ## URL resolvers -/

/-- Result of `VimeoDownloaderCLI.parse_vimeo_url`: the
`(video_id, unlock_hash, h_param, share_token)` tuple, each slot `None`
when not set. -/
structure CliRef where
  video_id : Option String
  unlock_hash : Option String
  h_param : Option String
  share_token : Option String
deriving Repr, DecidableEq

/-- Python `str.strip('/')`: drop leading and trailing slashes. -/
def stripSlashes (s : String) : String :=
  ⟨((s.data.dropWhile (· = '/')).reverse.dropWhile (· = '/')).reverse⟩

/-- The fallback regular expression `/(\d+)(?:/|\?|$)` under `re.search`
leftmost-match semantics: the first `/` followed by a non-empty digit run
that is terminated by `/`, `?` or the end of the string captures that
run. -/
def regexFallbackSearch : List Char → Option String
  | [] => none
  | c :: rest =>
    if c = '/' then
      let run := rest.takeWhile Char.isDigit
      let after := rest.drop run.length
      if !run.isEmpty &&
          (after.isEmpty || after.head? = some '/' || after.head? = some '?') then
        some ⟨run⟩
      else regexFallbackSearch rest
    else regexFallbackSearch rest

/-- Whether `needle` occurs as a substring (Python `'x' in s`). -/
def isSubstrOf (needle hay : List Char) : Bool :=
  decide (needle <:+: hay)

/-- `VimeoDownloaderCLI.parse_vimeo_url` (`vimeo_dl_cli.py` lines
165-214): token extraction from query/fragment first, then host-specific
path rules, then the numeric-run fallback over the raw URL. -/
def cliParse (url : String) : CliRef :=
  let pu := urlsplit url
  let pathParts := (splitOnCh '/' (stripSlashes pu.path).data).map
    (fun l => (⟨l⟩ : String))
  let h := qsFirst pu.query "h"
  let sh :=
    if pu.fragment ≠ "" then qsFirst pu.fragment "share"
    else qsFirst pu.query "share"
  let vu : Option String × Option String :=
    if pu.netloc = "vimeo.com" then
      (if pathParts.length > 0 then pathParts.head? else none,
       if h2 : pathParts.length > 1 then
         if (pathParts.get ⟨1, h2⟩).data.head? ≠ some '?' then some (pathParts.get ⟨1, h2⟩)
         else none
       else none)
    else if isSubstrOf "player.vimeo.com".data pu.netloc.data then
      ((if h2 : pathParts.length > 1 then
          if pathParts.head? = some "video" then some (pathParts.get ⟨1, h2⟩) else none
        else none),
       if h3 : pathParts.length > 2 then some (pathParts.get ⟨2, h3⟩) else none)
    else (none, none)
  let vid' :=
    if pyTruthyStr vu.1 then vu.1
    else
      match regexFallbackSearch url.data with
      | some d => some d
      | none => vu.1
  ⟨vid', vu.2, h, sh⟩

/-- Result of `VimeoDownloader.parse_vimeo_url` (GUI variant): `None`, or
a dict with `video_id` and the optional keys each branch adds. -/
structure GuiRef where
  video_id : String
  unlock_hash : Option String
  h_param : Option String
  share_token : Option String
deriving Repr, DecidableEq

/-- ASCII letter or digit (the `[a-zA-Z0-9]` class). -/
def isAlnumAscii (c : Char) : Bool := c.isAlpha || c.isDigit

/-- `re.search` of a pattern `lit(\d+)/([a-zA-Z0-9]+)`: at the leftmost
position where the literal matches and is followed by a non-empty digit
run, a `/` and a non-empty alphanumeric run, capture both runs. -/
def searchLitDigitsSlashAlnum (lit : List Char) : List Char → Option (String × String)
  | [] => none
  | c :: rest =>
    match
      (if lit.isPrefixOf (c :: rest) then
        let after := (c :: rest).drop lit.length
        let run := after.takeWhile Char.isDigit
        if run.isEmpty then none
        else
          match after.drop run.length with
          | '/' :: a3 =>
            let alnum := a3.takeWhile isAlnumAscii
            if alnum.isEmpty then none else some ((⟨run⟩ : String), (⟨alnum⟩ : String))
          | _ => none
      else none) with
    | some r => some r
    | none => searchLitDigitsSlashAlnum lit rest

/-- `re.search` of a pattern `lit(\d+)`: at the leftmost position where
the literal matches and is followed by a non-empty digit run, capture the
run. -/
def searchLitDigits (lit : List Char) : List Char → Option String
  | [] => none
  | c :: rest =>
    match
      (if lit.isPrefixOf (c :: rest) then
        let after := (c :: rest).drop lit.length
        let run := after.takeWhile Char.isDigit
        if run.isEmpty then none else some (⟨run⟩ : String)
      else none) with
    | some r => some r
    | none => searchLitDigits lit rest

/-- `VimeoDownloader.parse_vimeo_url` (`vimeo_downloader.py` lines
227-280): four regex patterns tried in order with early return, then the
bare-numeric check; `None` when nothing matches. -/
def guiParse (url : String) : Option GuiRef :=
  match searchLitDigitsSlashAlnum "vimeo.com/".data url.data with
  | some (vid, uh) => some ⟨vid, some uh, none, none⟩
  | none =>
    match searchLitDigitsSlashAlnum "player.vimeo.com/video/".data url.data with
    | some (vid, uh) => some ⟨vid, some uh, none, none⟩
    | none =>
      match searchLitDigits "vimeo.com/".data url.data with
      | some vid =>
        let pu := urlsplit url
        some ⟨vid, none, qsFirst pu.query "h", qsFirst pu.query "share"⟩
      | none =>
        match searchLitDigits "player.vimeo.com/video/".data url.data with
        | some vid => some ⟨vid, none, none, none⟩
        | none =>
          if pyIsDigitStr (pyStrip url) then some ⟨pyStrip url, none, none, none⟩
          else none

/-- Counterexample for C2 as stated: on the claim's own example URL the
GUI resolver (`VimeoDownloader.parse_vimeo_url`) resolves the video id
through its player pattern but captures no `h_param`, although the query
carries `h=abc123` - token capture there is not independent of the
structural form. -/
theorem claim_C2_counterexample :
    guiParse "https://player.vimeo.com/video/325572565?h=abc123" =
      some ⟨"325572565", none, none, none⟩ ∧
    qsFirst (urlsplit "https://player.vimeo.com/video/325572565?h=abc123").query "h" =
      some "abc123" := by
  constructor
  · decide
  · decide

/-- C2 (amended): in the CLI resolver
(`VimeoDownloaderCLI.parse_vimeo_url`) token capture is independent of
the structural form: for every input URL, `h_param` is the first `h`
query value and `share_token` the first `share` value of the fragment
(or of the query when the fragment is empty); on the claim's example
player URL it yields video id `325572565` with `h_param` `abc123`.  The
GUI resolver does not satisfy this: it captures tokens only in its
bare-domain query branch (see the counterexample). -/
theorem claim_C2_token_capture :
    (∀ url : String,
      (cliParse url).h_param = qsFirst (urlsplit url).query "h" ∧
      (cliParse url).share_token =
        (if (urlsplit url).fragment ≠ "" then qsFirst (urlsplit url).fragment "share"
         else qsFirst (urlsplit url).query "share")) ∧
    cliParse "https://player.vimeo.com/video/325572565?h=abc123" =
      ⟨some "325572565", none, some "abc123", none⟩ := by
  refine ⟨fun url => ⟨rfl, rfl⟩, by decide⟩

theorem searchLitDigitsSlashAlnum_none (lit : List Char) (c0 : Char)
    (hc0 : lit.head? = some c0) :
    ∀ cs : List Char, (∀ c ∈ cs, c ≠ c0) → searchLitDigitsSlashAlnum lit cs = none := by
  intro cs
  induction cs with
  | nil => intro _; rfl
  | cons c rest ih =>
    intro h
    have hpre : lit.isPrefixOf (c :: rest) = false := by
      cases lit with
      | nil => simp at hc0
      | cons l0 lit' =>
        injection hc0 with hc0
        simp only [List.isPrefixOf]
        have hne : (l0 == c) = false := by
          rw [beq_eq_false_iff_ne, hc0]
          exact fun hcc => h c (by simp) hcc.symm
        simp [hne]
    rw [searchLitDigitsSlashAlnum, hpre]
    simp only [Bool.false_eq_true, if_false]
    exact ih (fun x hx => h x (by simp [hx]))

theorem searchLitDigits_none (lit : List Char) (c0 : Char)
    (hc0 : lit.head? = some c0) :
    ∀ cs : List Char, (∀ c ∈ cs, c ≠ c0) → searchLitDigits lit cs = none := by
  intro cs
  induction cs with
  | nil => intro _; rfl
  | cons c rest ih =>
    intro h
    have hpre : lit.isPrefixOf (c :: rest) = false := by
      cases lit with
      | nil => simp at hc0
      | cons l0 lit' =>
        injection hc0 with hc0
        simp only [List.isPrefixOf]
        have hne : (l0 == c) = false := by
          rw [beq_eq_false_iff_ne, hc0]
          exact fun hcc => h c (by simp) hcc.symm
        simp [hne]
    rw [searchLitDigits, hpre]
    simp only [Bool.false_eq_true, if_false]
    exact ih (fun x hx => h x (by simp [hx]))

theorem mem_pyStripL (cs : List Char) (c : Char) (hc : c ∈ cs) :
    isPyWs c = true ∨ c ∈ pyStripL cs := by
  rcases List.mem_append.mp
      ((List.takeWhile_append_dropWhile (p := isPyWs) (l := cs)) ▸ hc) with h1 | h2
  · exact Or.inl (List.mem_takeWhile_imp h1)
  · set d := cs.dropWhile isPyWs with hd
    have h2r : c ∈ d.reverse := List.mem_reverse.mpr h2
    rcases List.mem_append.mp
        ((List.takeWhile_append_dropWhile (p := isPyWs) (l := d.reverse)) ▸ h2r) with h3 | h4
    · exact Or.inl (List.mem_takeWhile_imp h3)
    · exact Or.inr (by
        unfold pyStripL
        exact List.mem_reverse.mpr h4)

/-- Counterexample for C6 as stated: the CLI resolver
(`VimeoDownloaderCLI.parse_vimeo_url`) yields no video id at all on the
purely numeric input `12345` - its fallback regex requires a `/` before
the digit run. -/
theorem claim_C6_counterexample :
    pyIsDigitStr "12345" = true ∧ cliParse "12345" = ⟨none, none, none, none⟩ := by
  constructor
  · decide
  · decide

/-- C6 (amended): the GUI resolver (`VimeoDownloader.parse_vimeo_url`)
accepts every purely numeric input string (after `strip()`) as a bare
`video_id` with no unlock hash or tokens; the CLI resolver does not (see
the counterexample). -/
theorem claim_C6_numeric_input (s : String)
    (hd : pyIsDigitStr (pyStrip s) = true) :
    guiParse s = some ⟨pyStrip s, none, none, none⟩ := by
  have hchars : ∀ c ∈ s.data, isPyWs c = true ∨ c.isDigit = true := by
    intro c hc
    rcases mem_pyStripL s.data c hc with h | h
    · exact Or.inl h
    · right
      have := (Bool.and_eq_true _ _).mp hd
      have hall := this.2
      rw [List.all_eq_true] at hall
      exact hall c h
  have hv : ∀ c ∈ s.data, c ≠ 'v' := by
    intro c hc hcv
    subst hcv
    rcases hchars 'v' hc with h | h <;> exact absurd h (by decide)
  have hp : ∀ c ∈ s.data, c ≠ 'p' := by
    intro c hc hcp
    subst hcp
    rcases hchars 'p' hc with h | h <;> exact absurd h (by decide)
  unfold guiParse
  rw [searchLitDigitsSlashAlnum_none "vimeo.com/".data 'v' rfl s.data hv,
    searchLitDigitsSlashAlnum_none "player.vimeo.com/video/".data 'p' rfl s.data hp,
    searchLitDigits_none "vimeo.com/".data 'v' rfl s.data hv,
    searchLitDigits_none "player.vimeo.com/video/".data 'p' rfl s.data hp]
  simp [hd]

/-- Witness for the amended C6 theorem at the whitespace-padded numeric
input `"  12345  "`. -/
theorem claim_C6_numeric_input_witness :
    guiParse "  12345  " = some ⟨pyStrip "  12345  ", none, none, none⟩ :=
  claim_C6_numeric_input "  12345  " (by decide)

/-! ### Round trip of `quote_plus` through `parse_qsl` -/

theorem char_toNat_lt (c : Char) : c.toNat < 1114112 := by
  have h := c.valid
  unfold UInt32.isValidChar Nat.isValidChar at h
  unfold Char.toNat
  omega

theorem hexVal_hexDigitUpper (n : Nat) (h : n < 16) :
    hexVal (hexDigitUpper n) = some n := by
  interval_cases n <;> decide

theorem hexDigitUpper_ne_plus (n : Nat) (h : n < 16) : hexDigitUpper n ≠ '+' := by
  interval_cases n <;> decide

theorem hexDigitUpper_ne_amp_eq (n : Nat) (h : n < 16) :
    hexDigitUpper n ≠ '&' ∧ hexDigitUpper n ≠ '=' ∧ hexDigitUpper n ≠ '#' ∧
      hexDigitUpper n ≠ '?' := by
  interval_cases n <;> decide

theorem utf8Encode_lt_256 (c : Char) : ∀ b ∈ utf8Encode c, b < 256 := by
  have hv := char_toNat_lt c
  intro b hb
  simp only [utf8Encode] at hb
  split_ifs at hb <;>
    simp only [List.mem_cons, List.not_mem_nil, or_false] at hb <;> omega

theorem utf8DecodeReplace_encode_prepend (c : Char) (bs : List Nat) :
    utf8DecodeReplace (utf8Encode c ++ bs) = c :: utf8DecodeReplace bs := by
  have hv := char_toNat_lt c
  have hofnat := Char.ofNat_toNat c
  by_cases h1 : c.toNat < 0x80
  · have he : utf8Encode c = [c.toNat] := by
      simp only [utf8Encode]
      rw [if_pos h1]
    rw [he, List.cons_append, List.nil_append, utf8DecodeReplace]
    rw [if_pos h1, hofnat]
  · by_cases h2 : c.toNat < 0x800
    · have he : utf8Encode c = [192 + c.toNat / 64, 128 + c.toNat % 64] := by
        simp only [utf8Encode]
        rw [if_neg h1, if_pos h2]
      rw [he, List.cons_append, List.cons_append, List.nil_append, utf8DecodeReplace]
      rw [if_neg (by omega), if_pos (by constructor <;> omega), utf8Dec2]
      rw [if_pos (by constructor <;> omega)]
      have h64 : (192 + c.toNat / 64 - 192) * 64 + (128 + c.toNat % 64 - 128) = c.toNat := by
        omega
      rw [h64, hofnat]
    · by_cases h3 : c.toNat < 0x10000
      · have he : utf8Encode c =
            [224 + c.toNat / 4096, 128 + c.toNat / 64 % 64, 128 + c.toNat % 64] := by
          simp only [utf8Encode]
          rw [if_neg h1, if_neg h2, if_pos h3]
        rw [he, List.cons_append, List.cons_append, List.cons_append, List.nil_append,
          utf8DecodeReplace]
        rw [if_neg (by omega), if_neg (by omega), if_pos (by constructor <;> omega), utf8Dec3]
        rw [if_pos (by refine ⟨⟨?_, ?_⟩, ?_, ?_⟩ <;> omega)]
        have hval : (224 + c.toNat / 4096 - 224) * 4096 +
            (128 + c.toNat / 64 % 64 - 128) * 64 + (128 + c.toNat % 64 - 128) = c.toNat := by
          omega
        rw [hval, hofnat]
      · have he : utf8Encode c =
            [240 + c.toNat / 262144, 128 + c.toNat / 4096 % 64, 128 + c.toNat / 64 % 64,
              128 + c.toNat % 64] := by
          simp only [utf8Encode]
          rw [if_neg h1, if_neg h2, if_neg h3]
        rw [he, List.cons_append, List.cons_append, List.cons_append, List.cons_append,
          List.nil_append, utf8DecodeReplace]
        rw [if_neg (by omega), if_neg (by omega), if_neg (by omega),
          if_pos (by constructor <;> omega), utf8Dec4]
        rw [if_pos (by refine ⟨⟨?_, ?_⟩, ⟨?_, ?_⟩, ?_, ?_⟩ <;> omega)]
        have hval : (240 + c.toNat / 262144 - 240) * 262144 +
            (128 + c.toNat / 4096 % 64 - 128) * 4096 +
            (128 + c.toNat / 64 % 64 - 128) * 64 + (128 + c.toNat % 64 - 128) = c.toNat := by
          omega
        rw [hval, hofnat]

theorem utf8DecodeReplace_concat (ds : List Char) :
    utf8DecodeReplace ((ds.map utf8Encode).flatten) = ds := by
  induction ds with
  | nil => rfl
  | cons d rest ih =>
    rw [List.map_cons, List.flatten_cons, utf8DecodeReplace_encode_prepend, ih]

theorem unquoteScan_idle_cons_ne (pend : List Nat) (c : Char) (rest : List Char)
    (h : c ≠ '%') :
    unquoteScan pend .idle (c :: rest) =
      utf8DecodeReplace pend ++ c :: unquoteScan [] .idle rest := by
  rw [unquoteScan, if_neg h]

theorem unquoteScan_absorb (bs : List Nat) (hb : ∀ b ∈ bs, b < 256) :
    ∀ (pend : List Nat) (rest : List Char),
    unquoteScan pend .idle ((bs.map percentEncodeByte).flatten ++ rest) =
      unquoteScan (pend ++ bs) .idle rest := by
  induction bs with
  | nil =>
    intro pend rest
    simp
  | cons b bs' ih =>
    intro pend rest
    have hb0 : b < 256 := hb b (by simp)
    have hbs' : ∀ x ∈ bs', x < 256 := fun x hx => hb x (by simp [hx])
    rw [List.map_cons, List.flatten_cons]
    show unquoteScan pend .idle
      ('%' :: hexDigitUpper (b / 16) :: hexDigitUpper (b % 16) ::
        ((bs'.map percentEncodeByte).flatten ++ rest)) = _
    rw [unquoteScan, if_pos rfl, unquoteScan,
      show hexVal (hexDigitUpper (b / 16)) = some (b / 16) from
        hexVal_hexDigitUpper _ (by omega)]
    dsimp only
    rw [unquoteScan,
      show hexVal (hexDigitUpper (b % 16)) = some (b % 16) from
        hexVal_hexDigitUpper _ (by omega)]
    dsimp only
    rw [show 16 * (b / 16) + b % 16 = b from by omega]
    rw [ih hbs' (pend ++ [b]) rest, List.append_assoc]
    rfl

theorem plusToSpaceL_id (cs : List Char) (h : ∀ c ∈ cs, c ≠ '+') :
    plusToSpaceL cs = cs := by
  induction cs with
  | nil => rfl
  | cons c rest ih =>
    have hc : c ≠ '+' := h c (by simp)
    simp only [plusToSpaceL, List.map_cons, if_neg hc]
    exact congrArg _ (ih (fun x hx => h x (by simp [hx])))

theorem unquoteScan_plain (cs : List Char) (h : ∀ c ∈ cs, c ≠ '%') :
    unquoteScan [] .idle cs = cs := by
  induction cs with
  | nil => rfl
  | cons c rest ih =>
    rw [unquoteScan_idle_cons_ne [] c rest (h c (by simp))]
    rw [ih (fun x hx => h x (by simp [hx]))]
    rfl

/-- Safe characters are not touched by the percent-encoder's special
characters. -/
theorem isAlwaysSafe_ne (c : Char) (h : isAlwaysSafe c = true) :
    c ≠ '+' ∧ c ≠ '%' ∧ c ≠ ' ' ∧ c ≠ '&' ∧ c ≠ '=' ∧ c ≠ '#' ∧ c ≠ '?' := by
  refine ⟨?_, ?_, ?_, ?_, ?_, ?_, ?_⟩ <;>
    · intro hc
      subst hc
      exact absurd h (by decide)

theorem quote_roundtrip_aux (cs : List Char) : ∀ pendds : List Char,
    unquoteScan ((pendds.map utf8Encode).flatten) .idle (plusToSpaceL (quoteL cs)) =
      pendds ++ cs := by
  induction cs with
  | nil =>
    intro pendds
    show unquoteScan _ .idle (plusToSpaceL []) = _
    rw [show plusToSpaceL [] = [] from rfl, unquoteScan, utf8DecodeReplace_concat,
      List.append_nil]
  | cons c rest ih =>
    intro pendds
    have hql : quoteL (c :: rest) = quotePlusChar c ++ quoteL rest := by
      simp [quoteL]
    rw [hql]
    have hmap : plusToSpaceL (quotePlusChar c ++ quoteL rest) =
        plusToSpaceL (quotePlusChar c) ++ plusToSpaceL (quoteL rest) := by
      simp [plusToSpaceL]
    rw [hmap]
    by_cases hsafe : isAlwaysSafe c = true
    · obtain ⟨hp, hpc, _, _, _, _, _⟩ := isAlwaysSafe_ne c hsafe
      rw [show quotePlusChar c = [c] from by simp [quotePlusChar, hsafe]]
      rw [show plusToSpaceL [c] = [c] from by simp [plusToSpaceL, hp]]
      rw [List.cons_append, List.nil_append]
      rw [unquoteScan_idle_cons_ne _ c _ hpc, utf8DecodeReplace_concat]
      have := ih ([] : List Char)
      simp only [List.map_nil, List.flatten_nil, List.nil_append] at this
      rw [this]
    · by_cases hsp : c = ' '
      · subst hsp
        rw [show quotePlusChar ' ' = ['+'] from by decide]
        rw [show plusToSpaceL ['+'] = [' '] from by decide]
        rw [List.cons_append, List.nil_append]
        rw [unquoteScan_idle_cons_ne _ ' ' _ (by decide), utf8DecodeReplace_concat]
        have := ih ([] : List Char)
        simp only [List.map_nil, List.flatten_nil, List.nil_append] at this
        rw [this]
      · rw [show quotePlusChar c = ((utf8Encode c).map percentEncodeByte).flatten from by
          simp [quotePlusChar, hsafe, hsp]]
        have hnoplus : ∀ x ∈ ((utf8Encode c).map percentEncodeByte).flatten, x ≠ '+' := by
          intro x hx
          obtain ⟨l, hl, hxl⟩ := List.mem_flatten.mp hx
          obtain ⟨b, hb, rfl⟩ := List.mem_map.mp hl
          have hb256 := utf8Encode_lt_256 c b hb
          simp only [percentEncodeByte, List.mem_cons, List.not_mem_nil, or_false] at hxl
          rcases hxl with rfl | rfl | rfl
          · decide
          · exact hexDigitUpper_ne_plus _ (by omega)
          · exact hexDigitUpper_ne_plus _ (by omega)
        rw [plusToSpaceL_id _ hnoplus]
        rw [unquoteScan_absorb (utf8Encode c) (utf8Encode_lt_256 c) _ _]
        have hpend : (pendds.map utf8Encode).flatten ++ utf8Encode c =
            (((pendds ++ [c]).map utf8Encode).flatten) := by
          simp
        rw [hpend, ih (pendds ++ [c])]
        simp

/-- `unquote(quote_plus(s).replace('+',' '))` recovers `s` exactly. -/
theorem unquote_quote_roundtrip (s : String) :
    unquotePlusL (quoteL s.data) = s := by
  unfold unquotePlusL
  have := quote_roundtrip_aux s.data ([] : List Char)
  simp only [List.map_nil, List.flatten_nil, List.nil_append] at this
  rw [this]

theorem splitFirstChar_of_mem_free (sep : Char) (k v : List Char)
    (h : ∀ c ∈ k, c ≠ sep) :
    splitFirstChar sep (k ++ sep :: v) = some (k, v) := by
  induction k with
  | nil => simp [splitFirstChar]
  | cons c rest ih =>
    have hc : c ≠ sep := h c (by simp)
    rw [List.cons_append, splitFirstChar, if_neg hc, ih (fun x hx => h x (by simp [hx]))]
    rfl

theorem splitFirstChar_none_of_free (sep : Char) (cs : List Char)
    (h : ∀ c ∈ cs, c ≠ sep) :
    splitFirstChar sep cs = none := by
  induction cs with
  | nil => rfl
  | cons c rest ih =>
    rw [splitFirstChar, if_neg (h c (by simp)), ih (fun x hx => h x (by simp [hx]))]
    rfl

theorem splitOnCh_of_free (sep : Char) (cs : List Char) (h : ∀ c ∈ cs, c ≠ sep) :
    splitOnCh sep cs = [cs] := by
  induction cs with
  | nil => rfl
  | cons c rest ih =>
    rw [splitOnCh, if_neg (h c (by simp)), ih (fun x hx => h x (by simp [hx]))]

theorem splitOnCh_append (sep : Char) (p t : List Char) (h : ∀ c ∈ p, c ≠ sep) :
    splitOnCh sep (p ++ sep :: t) = p :: splitOnCh sep t := by
  induction p with
  | nil =>
    rw [List.nil_append, splitOnCh, if_pos rfl]
  | cons c rest ih =>
    rw [List.cons_append, splitOnCh, if_neg (h c (by simp)),
      ih (fun x hx => h x (by simp [hx]))]

theorem mem_quoteL_special (cs : List Char) :
    ∀ x ∈ quoteL cs, x ≠ '&' ∧ x ≠ '=' ∧ x ≠ '#' ∧ x ≠ '?' := by
  intro x hx
  obtain ⟨l, hl, hxl⟩ := List.mem_flatten.mp hx
  obtain ⟨c, _, rfl⟩ := List.mem_map.mp hl
  unfold quotePlusChar at hxl
  split_ifs at hxl with hsafe hsp
  · simp only [List.mem_cons, List.not_mem_nil, or_false] at hxl
    subst hxl
    obtain ⟨_, _, _, h4, h5, h6, h7⟩ := isAlwaysSafe_ne x hsafe
    exact ⟨h4, h5, h6, h7⟩
  · simp only [List.mem_cons, List.not_mem_nil, or_false] at hxl
    subst hxl
    refine ⟨by decide, by decide, by decide, by decide⟩
  · obtain ⟨l2, hl2, hxl2⟩ := List.mem_flatten.mp hxl
    obtain ⟨b, hb, rfl⟩ := List.mem_map.mp hl2
    have hb256 := utf8Encode_lt_256 c b hb
    simp only [percentEncodeByte, List.mem_cons, List.not_mem_nil, or_false] at hxl2
    rcases hxl2 with rfl | rfl | rfl
    · refine ⟨by decide, by decide, by decide, by decide⟩
    · exact hexDigitUpper_ne_amp_eq _ (by omega)
    · exact hexDigitUpper_ne_amp_eq _ (by omega)

/-- A literal query-parameter key as this program uses them: non-empty,
and free of the separator and escape characters. -/
def PlainKey (k : String) : Prop :=
  k.data ≠ [] ∧ ∀ c ∈ k.data, c ≠ '&' ∧ c ≠ '=' ∧ c ≠ '%' ∧ c ≠ '+' ∧ c ≠ '#' ∧ c ≠ '?'

theorem unquotePlusL_plain (k : List Char)
    (h : ∀ c ∈ k, c ≠ '%' ∧ c ≠ '+') : unquotePlusL k = ⟨k⟩ := by
  unfold unquotePlusL
  rw [plusToSpaceL_id k (fun c hc => (h c hc).2),
    unquoteScan_plain k (fun c hc => (h c hc).1)]

theorem quotePlusChar_ne_nil (c : Char) : quotePlusChar c ≠ [] := by
  unfold quotePlusChar
  split_ifs with h1 h2
  · simp
  · simp
  · have hne : utf8Encode c ≠ [] := by
      unfold utf8Encode
      dsimp only
      split_ifs <;> simp
    cases he : utf8Encode c with
    | nil => exact absurd he hne
    | cons b bs => simp [percentEncodeByte]

theorem parseQsl_encodeQuery (params : List (String × String))
    (hk : ∀ p ∈ params, PlainKey p.1) (hv : ∀ p ∈ params, p.2 ≠ "") :
    parseQslL (encodeQuery params) = params := by
  induction params with
  | nil => rfl
  | cons p rest ih =>
    obtain ⟨k, v⟩ := p
    have hkp : PlainKey k := hk (k, v) (by simp)
    have hvp : v ≠ "" := hv (k, v) (by simp)
    have hpartfree : ∀ c ∈ k.data ++ '=' :: quoteL v.data, c ≠ '&' := by
      intro c hc
      rcases List.mem_append.mp hc with h1 | h2
      · exact (hkp.2 c h1).1
      · rcases List.mem_cons.mp h2 with rfl | h3
        · decide
        · exact (mem_quoteL_special v.data c h3).1
    have hsplitpair : splitFirstChar '=' (k.data ++ '=' :: quoteL v.data) =
        some (k.data, quoteL v.data) := by
      apply splitFirstChar_of_mem_free
      intro c hc
      exact (hkp.2 c hc).2.1
    have hquote_ne : quoteL v.data ≠ [] := by
      cases hvd : v.data with
      | nil => exact absurd (by cases v; simp_all) hvp
      | cons c cs =>
        simp only [quoteL, List.map_cons, List.flatten_cons]
        intro hcontra
        exact quotePlusChar_ne_nil c (List.append_eq_nil.mp hcontra).1
    have hkey : unquotePlusL k.data = k := by
      rw [unquotePlusL_plain k.data (fun c hc =>
        ⟨(hkp.2 c hc).2.2.1, (hkp.2 c hc).2.2.2.1⟩)]
    have hval : unquotePlusL (quoteL v.data) = v := unquote_quote_roundtrip v
    cases hrest : rest with
    | nil =>
      show parseQslL (k.data ++ '=' :: quoteL v.data) = [(k, v)]
      unfold parseQslL splitOnAmp
      rw [splitOnCh_of_free '&' _ hpartfree]
      simp only [List.foldr_cons, List.foldr_nil, hsplitpair]
      rw [if_neg hquote_ne, hkey, hval]
    | cons q qs =>
      rw [← hrest]
      have hrest_ne : rest ≠ [] := by rw [hrest]; simp
      have hjoin : encodeQuery ((k, v) :: rest) =
          (k.data ++ '=' :: quoteL v.data) ++ '&' :: encodeQuery rest := by
        unfold encodeQuery
        rw [List.map_cons]
        cases hrm : rest.map (fun p => p.1.data ++ '=' :: quoteL p.2.data) with
        | nil => simp at hrm; exact absurd hrm hrest_ne
        | cons a as => rw [joinAmp]; simp [joinAmp, hrm]
      rw [hjoin]
      unfold parseQslL splitOnAmp
      rw [splitOnCh_append '&' _ _ hpartfree]
      simp only [List.foldr_cons, hsplitpair]
      rw [if_neg hquote_ne, hkey, hval]
      have ihr := ih (fun q hq => hk q (by simp [hq])) (fun q hq => hv q (by simp [hq]))
      unfold parseQslL splitOnAmp at ihr
      rw [ihr]

theorem takeWhile_lit (p : Char → Bool) (xs ys : List Char)
    (hxs : ∀ x ∈ xs, p x = true)
    (hys : ∀ y, ys.head? = some y → p y = false) :
    (xs ++ ys).takeWhile p = xs := by
  induction xs with
  | nil =>
    cases ys with
    | nil => rfl
    | cons y ys' =>
      simp only [List.nil_append, List.takeWhile_cons, hys y rfl]
      rfl
  | cons x xs' ih =>
    rw [List.cons_append, List.takeWhile_cons, hxs x (by simp), if_pos rfl]
    exact congrArg _ (ih (fun z hz => hxs z (by simp [hz])))

theorem mem_joinAmp (ps : List (List Char)) (c : Char) (hc : c ∈ joinAmp ps) :
    c = '&' ∨ ∃ p ∈ ps, c ∈ p := by
  induction ps with
  | nil => simp [joinAmp] at hc
  | cons p rest ih =>
    cases rest with
    | nil =>
      simp only [joinAmp] at hc
      exact Or.inr ⟨p, by simp, hc⟩
    | cons q qs =>
      have hj : joinAmp (p :: q :: qs) = p ++ '&' :: joinAmp (q :: qs) := rfl
      rw [hj] at hc
      rcases List.mem_append.mp hc with h1 | h2
      · exact Or.inr ⟨p, by simp, h1⟩
      · rcases List.mem_cons.mp h2 with rfl | h3
        · exact Or.inl rfl
        · rcases ih h3 with h4 | ⟨r, hr, hcr⟩
          · exact Or.inl h4
          · exact Or.inr ⟨r, by simp [hr], hcr⟩

theorem urlsplit_built (P Q : List Char)
    (hP0 : P.head? = some '/')
    (hP : ∀ c ∈ P, c ≠ '?' ∧ c ≠ '#')
    (hQ : ∀ c ∈ Q, c ≠ '#') :
    urlsplit ⟨"https://player.vimeo.com".data ++ P ++ '?' :: Q⟩ =
      ⟨"https", "player.vimeo.com", ⟨P⟩, ⟨Q⟩, ""⟩ := by
  unfold urlsplit
  have hdata : (⟨"https://player.vimeo.com".data ++ P ++ '?' :: Q⟩ : String).data =
      "https".data ++ ':' :: ("//player.vimeo.com".data ++ (P ++ '?' :: Q)) := by
    show "https://player.vimeo.com".data ++ P ++ '?' :: Q = _
    rw [show "https://player.vimeo.com".data =
      "https".data ++ ':' :: "//player.vimeo.com".data from by decide]
    simp [List.append_assoc]
  rw [hdata]
  dsimp only
  rw [splitFirstChar_of_mem_free ':' "https".data _ (by decide)]
  dsimp only
  rw [if_pos (by decide)]
  rw [show ("https".data.map Char.toLower) = "https".data from by decide]
  rw [show "//player.vimeo.com".data ++ (P ++ '?' :: Q) =
    '/' :: '/' :: ("player.vimeo.com".data ++ (P ++ '?' :: Q)) from by
      rw [show "//player.vimeo.com".data = '/' :: '/' :: "player.vimeo.com".data from by
        decide]
      simp]
  rw [splitNetloc]
  rw [takeWhile_lit _ "player.vimeo.com".data (P ++ '?' :: Q) (by decide) ?hd]
  case hd =>
    intro y hy
    cases hP' : P with
    | nil => simp [hP'] at hP0
    | cons p0 ps =>
      rw [hP'] at hy
      simp only [List.cons_append, List.head?_cons] at hy
      injection hy with hy
      rw [hP'] at hP0
      simp only [List.head?_cons] at hP0
      injection hP0 with hP0
      subst hP0
      subst hy
      decide
  rw [List.drop_left]
  rw [splitFirstChar_none_of_free '#' (P ++ '?' :: Q) ?hfree]
  case hfree =>
    intro c hc
    rcases List.mem_append.mp hc with h1 | h2
    · exact (hP c h1).2
    · rcases List.mem_cons.mp h2 with rfl | h3
      · decide
      · exact hQ c h3
  dsimp only
  rw [splitFirstChar_of_mem_free '?' P Q (fun c hc => (hP c hc).1)]

/-- The extra path segment contributed by a truthy `unlock_hash`. -/
def hashSegment (uh : Option String) : List Char :=
  match uh with
  | some s => if s ≠ "" then '/' :: s.data else []
  | none => []

/-- Path of the configuration URL: the player-configuration endpoint for
`video_id`, with the unlock hash as an extra segment when present. -/
def builtPathData (v : String) (uh : Option String) : List Char :=
  "/video/".data ++ v.data ++ hashSegment uh ++ "/config".data

theorem buildWith_split (fixed : List (String × String)) (hfixne : fixed ≠ [])
    (hfixq : ∀ p ∈ fixed, ∀ c ∈ p.1.data, c ≠ '#')
    (v : String) (uh h sh : Option String)
    (hid : ∀ c ∈ v.data, c ≠ '?' ∧ c ≠ '#')
    (hhash : ∀ s, uh = some s → ∀ c ∈ s.data, c ≠ '?' ∧ c ≠ '#') :
    urlsplit (buildConfigUrlWith fixed v uh h sh) =
      ⟨"https", "player.vimeo.com", ⟨builtPathData v uh⟩,
       ⟨encodeQuery (tokenParam "h" h ++ tokenParam "share" sh ++ fixed)⟩, ""⟩ := by
  set params := tokenParam "h" h ++ tokenParam "share" sh ++ fixed with hparams
  have hpne : params.isEmpty = false := by
    rw [hparams]
    cases hf : fixed with
    | nil => exact absurd hf hfixne
    | cons a as => simp
  have hQ : ∀ c ∈ encodeQuery params, c ≠ '#' := by
    intro c hc
    rcases mem_joinAmp _ c hc with rfl | ⟨part, hpart, hcp⟩
    · decide
    · obtain ⟨p, hp, rfl⟩ := List.mem_map.mp hpart
      rcases List.mem_append.mp hcp with h1 | h2
      · rw [hparams] at hp
        rcases List.mem_append.mp hp with hp1 | hp2
        · rcases List.mem_append.mp hp1 with hp3 | hp4
          · unfold tokenParam at hp3
            rcases hht : h with _ | s0
            · rw [hht] at hp3
              simp at hp3
            · rw [hht] at hp3
              dsimp only at hp3
              by_cases hs0 : s0 ≠ ""
              · rw [if_pos hs0] at hp3
                simp only [List.mem_cons, List.not_mem_nil, or_false] at hp3
                subst hp3
                simp only [List.mem_singleton] at h1
                subst h1
                decide
              · rw [if_neg hs0] at hp3
                simp at hp3
          · unfold tokenParam at hp4
            rcases hht : sh with _ | s0
            · rw [hht] at hp4
              simp at hp4
            · rw [hht] at hp4
              dsimp only at hp4
              by_cases hs0 : s0 ≠ ""
              · rw [if_pos hs0] at hp4
                simp only [List.mem_cons, List.not_mem_nil, or_false] at hp4
                subst hp4
                simp only [List.mem_cons, List.not_mem_nil, or_false] at h1
                rcases h1 with rfl | rfl | rfl | rfl | rfl <;> decide
              · rw [if_neg hs0] at hp4
                simp at hp4
        · exact hfixq p hp2 c h1
      · rcases List.mem_cons.mp h2 with rfl | h3
        · decide
        · exact (mem_quoteL_special p.2.data c h3).2.2.1
  have hP0 : (builtPathData v uh).head? = some '/' := by
    unfold builtPathData
    rfl
  have hPmem : ∀ c ∈ builtPathData v uh, c ≠ '?' ∧ c ≠ '#' := by
    intro c hc
    unfold builtPathData at hc
    rcases List.mem_append.mp hc with hc1 | hc2
    · rcases List.mem_append.mp hc1 with hc3 | hc4
      · rcases List.mem_append.mp hc3 with hc5 | hc6
        · rw [show "/video/".data = ['/', 'v', 'i', 'd', 'e', 'o', '/'] from rfl] at hc5
          simp only [List.mem_cons, List.not_mem_nil, or_false] at hc5
          rcases hc5 with rfl | rfl | rfl | rfl | rfl | rfl | rfl <;>
            exact ⟨by decide, by decide⟩
        · exact hid c hc6
      · unfold hashSegment at hc4
        rcases hu : uh with _ | s0
        · rw [hu] at hc4
          simp at hc4
        · rw [hu] at hc4
          dsimp only at hc4
          by_cases hs0 : s0 ≠ ""
          · rw [if_pos hs0] at hc4
            rcases List.mem_cons.mp hc4 with rfl | hc7
            · exact ⟨by decide, by decide⟩
            · exact hhash s0 hu c hc7
          · rw [if_neg hs0] at hc4
            simp at hc4
    · rw [show "/config".data = ['/', 'c', 'o', 'n', 'f', 'i', 'g'] from rfl] at hc2
      simp only [List.mem_cons, List.not_mem_nil, or_false] at hc2
      rcases hc2 with rfl | rfl | rfl | rfl | rfl | rfl | rfl <;>
        exact ⟨by decide, by decide⟩
  have hurl : buildConfigUrlWith fixed v uh h sh =
      ⟨"https://player.vimeo.com".data ++ builtPathData v uh ++ '?' :: encodeQuery params⟩ := by
    unfold buildConfigUrlWith
    dsimp only
    rw [← hparams, hpne]
    simp only [Bool.false_eq_true, if_false]
    unfold builtPathData hashSegment
    rcases hu : uh with _ | s0
    · refine congrArg String.mk ?_
      simp only [String.data_append]
      simp [List.append_assoc]
    · dsimp only
      by_cases hs0 : s0 ≠ ""
      · rw [if_pos hs0, if_pos hs0]
        refine congrArg String.mk ?_
        simp [List.append_assoc]
      · rw [if_neg hs0, if_neg hs0]
        refine congrArg String.mk ?_
        simp [List.append_assoc]
  rw [hurl]
  exact urlsplit_built (builtPathData v uh) (encodeQuery params) hP0 hPmem hQ

/-! ## C5 and C8: the built configuration URL -/

theorem mem_tokenParam (k : String) (v : Option String) (p : String × String)
    (hp : p ∈ tokenParam k v) : p.1 = k ∧ v = some p.2 ∧ p.2 ≠ "" := by
  unfold tokenParam at hp
  rcases hv : v with _ | s
  · rw [hv] at hp
    simp at hp
  · rw [hv] at hp
    dsimp only at hp
    by_cases hs : s ≠ ""
    · rw [if_pos hs] at hp
      simp only [List.mem_singleton] at hp
      subst hp
      exact ⟨rfl, rfl, hs⟩
    · rw [if_neg hs] at hp
      simp at hp

theorem tokenParam_some (k s : String) (hs : s ≠ "") :
    tokenParam k (some s) = [(k, s)] := by
  unfold tokenParam
  dsimp only
  rw [if_pos hs]

theorem parse_built_query (fixed : List (String × String))
    (hfixne : fixed ≠ [])
    (hfix : ∀ p ∈ fixed, PlainKey p.1 ∧ p.2 ≠ "")
    (hfixq : ∀ p ∈ fixed, ∀ c ∈ p.1.data, c ≠ '#')
    (v : String) (uh h sh : Option String)
    (hid : ∀ c ∈ v.data, c ≠ '?' ∧ c ≠ '#')
    (hhash : ∀ s, uh = some s → ∀ c ∈ s.data, c ≠ '?' ∧ c ≠ '#') :
    (urlsplit (buildConfigUrlWith fixed v uh h sh)).path = ⟨builtPathData v uh⟩ ∧
    parseQsl (urlsplit (buildConfigUrlWith fixed v uh h sh)).query =
      tokenParam "h" h ++ tokenParam "share" sh ++ fixed := by
  rw [buildWith_split fixed hfixne hfixq v uh h sh hid hhash]
  refine ⟨rfl, ?_⟩
  show parseQslL (encodeQuery (tokenParam "h" h ++ tokenParam "share" sh ++ fixed)) = _
  apply parseQsl_encodeQuery
  · intro p hp
    rcases List.mem_append.mp hp with hp1 | hp2
    · rcases List.mem_append.mp hp1 with hp3 | hp4
      · rw [(mem_tokenParam _ _ _ hp3).1]
        exact ⟨by decide, by decide⟩
      · rw [(mem_tokenParam _ _ _ hp4).1]
        exact ⟨by decide, by decide⟩
    · exact (hfix p hp2).1
  · intro p hp
    rcases List.mem_append.mp hp with hp1 | hp2
    · rcases List.mem_append.mp hp1 with hp3 | hp4
      · exact (mem_tokenParam _ _ _ hp3).2.2
      · exact (mem_tokenParam _ _ _ hp4).2.2
    · exact (hfix p hp2).2

theorem fixedParamsCLI_plain : ∀ p ∈ fixedParamsCLI, PlainKey p.1 ∧ p.2 ≠ "" := by
  intro p hp
  fin_cases hp <;> exact ⟨⟨by decide, by decide⟩, by decide⟩

theorem fixedParamsGUI_plain : ∀ p ∈ fixedParamsGUI, PlainKey p.1 ∧ p.2 ≠ "" := by
  intro p hp
  fin_cases hp <;> exact ⟨⟨by decide, by decide⟩, by decide⟩

set_option maxRecDepth 8000 in
/-- C5 counterexample: the cited GUI builder stops its parameter dict at
`transparent`, so the GUI configuration URL carries no `api`, `app_id` or
`player_id` parameter at all, while the CLI URL for the same reference
carries `api=1` and `app_id=122963`. -/
theorem claim_C5_counterexample :
    qsValues (urlsplit (buildConfigUrlGUI "325572565" none none none)).query "api" = [] ∧
    qsValues (urlsplit (buildConfigUrlGUI "325572565" none none none)).query "app_id" = [] ∧
    qsValues (urlsplit (buildConfigUrlCLI "325572565" none none none)).query "api" = ["1"] ∧
    qsValues (urlsplit (buildConfigUrlCLI "325572565" none none none)).query "app_id" = ["122963"] := by
  refine ⟨?_, ?_, ?_, ?_⟩ <;> rfl

/-- C5 (amended): for every video reference whose `video_id` and truthy
`unlock_hash` are free of `?` and `#`, the CLI `build_config_url` emits a
URL whose path is the player-configuration endpoint with the unlock hash
as an extra path segment (never a header), and whose query re-parses to
exactly the `h` token (when set and non-empty), the `share` token (when
set and non-empty) and the full fixed player-emulation parameter set
including `app_id=122963`, `player_id=player`, `api=1` and `autoplay=0`.
The GUI builder produces the same path but only the nine fixed parameters
up to `transparent=1`: it omits the `app_id`/`player_id` pair, `api=1`
and `autoplay=0` (see the counterexample). -/
theorem claim_C5_fixed_params (v : String) (uh h sh : Option String)
    (hid : ∀ c ∈ v.data, c ≠ '?' ∧ c ≠ '#')
    (hhash : ∀ s, uh = some s → ∀ c ∈ s.data, c ≠ '?' ∧ c ≠ '#') :
    ((urlsplit (buildConfigUrlCLI v uh h sh)).path = ⟨builtPathData v uh⟩ ∧
     parseQsl (urlsplit (buildConfigUrlCLI v uh h sh)).query =
       tokenParam "h" h ++ tokenParam "share" sh ++ fixedParamsCLI) ∧
    ((urlsplit (buildConfigUrlGUI v uh h sh)).path = ⟨builtPathData v uh⟩ ∧
     parseQsl (urlsplit (buildConfigUrlGUI v uh h sh)).query =
       tokenParam "h" h ++ tokenParam "share" sh ++ fixedParamsGUI) :=
  ⟨parse_built_query fixedParamsCLI (by decide) fixedParamsCLI_plain (by decide)
      v uh h sh hid hhash,
   parse_built_query fixedParamsGUI (by decide) fixedParamsGUI_plain (by decide)
      v uh h sh hid hhash⟩

set_option maxRecDepth 8000 in
/-- C5 witness: the claim theorem instantiated at video id `325572565`,
unlock hash `9d31d005e2` and `h` token `abc123`. -/
theorem claim_C5_fixed_params_witness :
    (∀ c ∈ ("325572565" : String).data, c ≠ '?' ∧ c ≠ '#') ∧
    (((urlsplit (buildConfigUrlCLI "325572565" (some "9d31d005e2") (some "abc123") none)).path =
        ⟨builtPathData "325572565" (some "9d31d005e2")⟩ ∧
      parseQsl (urlsplit (buildConfigUrlCLI "325572565" (some "9d31d005e2") (some "abc123") none)).query =
        tokenParam "h" (some "abc123") ++ tokenParam "share" none ++ fixedParamsCLI) ∧
     ((urlsplit (buildConfigUrlGUI "325572565" (some "9d31d005e2") (some "abc123") none)).path =
        ⟨builtPathData "325572565" (some "9d31d005e2")⟩ ∧
      parseQsl (urlsplit (buildConfigUrlGUI "325572565" (some "9d31d005e2") (some "abc123") none)).query =
        tokenParam "h" (some "abc123") ++ tokenParam "share" none ++ fixedParamsGUI)) :=
  ⟨by decide,
   claim_C5_fixed_params "325572565" (some "9d31d005e2") (some "abc123") none
     (by decide)
     (by
        intro s hs
        injection hs with h1
        subst h1
        decide)⟩

/-- C8 (amended): for every video reference whose tokens are non-empty
strings, re-parsing the query string of the CLI configuration URL
returns exactly the original `h_param` under key `h` and the original
`share_token` under key `share`: `quote_plus` then `unquote_plus`
round-trips arbitrary token values.  An empty-string token is dropped by
the builder's truthiness guard and does not round-trip (see the
counterexample). -/
theorem claim_C8_token_roundtrip (v : String) (uh : Option String) (hs ss : String)
    (hhne : hs ≠ "") (hsne : ss ≠ "")
    (hid : ∀ c ∈ v.data, c ≠ '?' ∧ c ≠ '#')
    (hhash : ∀ s, uh = some s → ∀ c ∈ s.data, c ≠ '?' ∧ c ≠ '#') :
    qsValues (urlsplit (buildConfigUrlCLI v uh (some hs) (some ss))).query "h" = [hs] ∧
    qsValues (urlsplit (buildConfigUrlCLI v uh (some hs) (some ss))).query "share" = [ss] := by
  obtain ⟨-, hq⟩ := parse_built_query fixedParamsCLI (by decide) fixedParamsCLI_plain (by decide)
    v uh (some hs) (some ss) hid hhash
  rw [tokenParam_some _ _ hhne, tokenParam_some _ _ hsne] at hq
  unfold qsValues buildConfigUrlCLI
  rw [hq]
  constructor
  · simp [List.filterMap_cons, fixedParamsCLI]
  · simp [List.filterMap_cons, fixedParamsCLI]

set_option maxRecDepth 8000 in
/-- C8 counterexample: with `h_param` and `share_token` both the empty
string, the builder's `if h_param:` / `if share_token:` guards drop the
tokens, so re-parsing the built query yields no `h` or `share` value at
all rather than the original (empty) values. -/
theorem claim_C8_counterexample :
    qsValues (urlsplit (buildConfigUrlCLI "325572565" none (some "") (some ""))).query "h" = [] ∧
    qsValues (urlsplit (buildConfigUrlCLI "325572565" none (some "") (some ""))).query "share" = [] := by
  refine ⟨?_, ?_⟩ <;> rfl

set_option maxRecDepth 8000 in
/-- C8 witness: the claim theorem instantiated with tokens carrying
spaces, plus signs and non-ASCII text, which survive the
percent-encoding round trip. -/
theorem claim_C8_token_roundtrip_witness :
    ("a b+c%" : String) ≠ "" ∧ ("küß" : String) ≠ "" ∧
    qsValues (urlsplit (buildConfigUrlCLI "325572565" none (some "a b+c%") (some "küß"))).query "h" =
      ["a b+c%"] ∧
    qsValues (urlsplit (buildConfigUrlCLI "325572565" none (some "a b+c%") (some "küß"))).query "share" =
      ["küß"] := by
  have h := claim_C8_token_roundtrip "325572565" none "a b+c%" "küß"
    (by decide) (by decide) (by decide)
    (by intro s hs; exact Option.noConfusion hs)
  exact ⟨by decide, by decide, h.1, h.2⟩

/-! ## C1: partial-file cleanup in the two downloaders -/

/-- One event of a streamed download body: a data chunk yielded by
`response.iter_content(...)`, or the iterator raising a network/I-O
error mid-stream. -/
inductive ChunkEv where
  | chunk : List Nat → ChunkEv
  | err : ChunkEv
deriving Repr, DecidableEq

/-- Loop of `VimeoDownloaderCLI.download_file` (`vimeo_dl_cli.py` lines
232-269): each truthy chunk is appended to the open file; an exception
mid-stream reaches the `except` handlers, which `os.remove` the partial
file and return `False`.  Result: `(return value, file contents left at
save_path)`, `none` meaning no file remains. -/
def cliDownloadGo : List ChunkEv → List Nat → Bool × Option (List Nat)
  | [], acc => (true, some acc)
  | ChunkEv.chunk d :: rest, acc =>
    cliDownloadGo rest (if d = [] then acc else acc ++ d)
  | ChunkEv.err :: _, _ => (false, none)

/-- `VimeoDownloaderCLI.download_file` on a chunk-event trace, starting
from the freshly opened (empty) destination file. -/
def cliDownload (events : List ChunkEv) : Bool × Option (List Nat) :=
  cliDownloadGo events []

/-- How a run of the GUI `download_file` ends. -/
inductive GuiOutcome where
  | completed : GuiOutcome
  | cancelledOut : GuiOutcome
  | errorOut : GuiOutcome
deriving Repr, DecidableEq

/-- Loop of `VimeoDownloader.download_file` (`vimeo_downloader.py` lines
300-338): each iteration first pulls the next chunk from the iterator
(which may raise), then polls `self.cancelled` (argument `cancelled i`
for the `i`-th poll), removing the partial file on cancellation; data is
written unconditionally.  An exception reaches the `except` branch,
which only calls `show_error` — the partially written file stays. -/
def guiDownloadGo (cancelled : Nat → Bool) :
    List ChunkEv → Nat → List Nat → GuiOutcome × Option (List Nat)
  | [], _, acc => (GuiOutcome.completed, some acc)
  | ChunkEv.err :: _, _, acc => (GuiOutcome.errorOut, some acc)
  | ChunkEv.chunk d :: rest, i, acc =>
    if cancelled i then (GuiOutcome.cancelledOut, none)
    else guiDownloadGo cancelled rest (i + 1) (acc ++ d)

/-- `VimeoDownloader.download_file` on a chunk-event trace. -/
def guiDownload (cancelled : Nat → Bool) (events : List ChunkEv) :
    GuiOutcome × Option (List Nat) :=
  guiDownloadGo cancelled events 0 []

theorem cliDownloadGo_err (events : List ChunkEv)
    (herr : ChunkEv.err ∈ events) :
    ∀ acc, cliDownloadGo events acc = (false, none) := by
  induction events with
  | nil => cases herr
  | cons ev rest ih =>
    intro acc
    cases ev with
    | err => rfl
    | chunk d =>
      have hrest : ChunkEv.err ∈ rest := by
        rcases List.mem_cons.mp herr with heq | h2
        · exact absurd heq.symm (by simp)
        · exact h2
      show cliDownloadGo rest _ = _
      exact ih hrest _

theorem guiDownloadGo_cancel (cancelled : Nat → Bool) (events : List ChunkEv) :
    ∀ i acc, (guiDownloadGo cancelled events i acc).1 = GuiOutcome.cancelledOut →
      (guiDownloadGo cancelled events i acc).2 = none := by
  induction events with
  | nil => intro i acc h; exact absurd h (by simp [guiDownloadGo])
  | cons ev rest ih =>
    intro i acc h
    cases ev with
    | err => exact absurd h (by simp [guiDownloadGo])
    | chunk d =>
      show (guiDownloadGo cancelled (ChunkEv.chunk d :: rest) i acc).2 = none
      rw [guiDownloadGo] at h ⊢
      by_cases hc : cancelled i
      · rw [if_pos hc]
      · rw [if_neg hc] at h ⊢
        exact ih _ _ h

/-- C1 counterexample: in the GUI downloader a network error after one
written chunk reaches the `except` branch, which only reports the error:
the truncated file (contents `[1]`) remains at the destination path. -/
theorem claim_C1_counterexample :
    guiDownload (fun _ => false) [ChunkEv.chunk [1], ChunkEv.err] =
      (GuiOutcome.errorOut, some [1]) := rfl

/-- C1 (amended): the CLI downloader deletes the partial file and
returns `False` on every trace whose iteration raises mid-stream, and
the GUI downloader deletes the partial file whenever it returns through
its cooperative-cancellation branch; but only the GUI has a cancellation
flag, and on a mid-stream error the GUI leaves the partial file in place
(see the counterexample). -/
theorem claim_C1_cleanup (events : List ChunkEv) (cancelled : Nat → Bool)
    (herr : ChunkEv.err ∈ events) :
    cliDownload events = (false, none) ∧
    ((guiDownload cancelled events).1 = GuiOutcome.cancelledOut →
      (guiDownload cancelled events).2 = none) :=
  ⟨cliDownloadGo_err events herr [],
   guiDownloadGo_cancel cancelled events 0 []⟩

/-- C1 witness: a trace with one chunk then an error, under a
cancellation flag raised from the start: the CLI run deletes the file
and the GUI cancellation branch leaves none either. -/
theorem claim_C1_cleanup_witness :
    ChunkEv.err ∈ [ChunkEv.chunk [1], ChunkEv.err] ∧
    cliDownload [ChunkEv.chunk [1], ChunkEv.err] = (false, none) ∧
    ((guiDownload (fun _ => true) [ChunkEv.chunk [1], ChunkEv.err]).1 = GuiOutcome.cancelledOut →
      (guiDownload (fun _ => true) [ChunkEv.chunk [1], ChunkEv.err]).2 = none) :=
  ⟨by decide,
   (claim_C1_cleanup [ChunkEv.chunk [1], ChunkEv.err] (fun _ => true) (by decide)).1,
   (claim_C1_cleanup [ChunkEv.chunk [1], ChunkEv.err] (fun _ => true) (by decide)).2⟩

/-! ## C7: orchestration request traces -/

/-- Kind of HTTP request the two `download_video` orchestrations issue:
the vimeo.com video page, the player configuration endpoint, the
player embed page, and the stream download itself. -/
inductive ReqKind where
  | page : ReqKind
  | config : ReqKind
  | embed : ReqKind
  | download : ReqKind
deriving Repr, DecidableEq

/-- What the session returns for one request: whether `session.get`
raised a transport error, the HTTP status, and the parsed JSON body
(`none` when `response.json()` would raise `JSONDecodeError`). -/
structure Resp where
  raised : Bool
  status : Nat
  body : Option Json
deriving Repr

/-- How a `download_video` run ends: success, an error return
(`return False` in the CLI, `show_error`/`reset_ui` and return in the
GUI), or an uncaught exception propagating out. -/
inductive Outcome where
  | ok : Outcome
  | failed : Outcome
  | crashed : Outcome
deriving Repr, DecidableEq

/-- A request step fails when `session.get` raised, or when
`response.raise_for_status()` raises (400 ≤ status < 600). -/
def rfsFails (r : Resp) : Bool :=
  r.raised || (decide (400 ≤ r.status) && decide (r.status < 600))

/-- Python `int()` of a string: optional surrounding whitespace, an
optional sign, then decimal digits; anything else raises `ValueError`. -/
def pyIntOfStr (s : String) : Except PyErr Int :=
  match (pyStrip s).data with
  | '-' :: ds =>
    if pyIsDigitStr ⟨ds⟩ then Except.ok (-(digitsToNat ⟨ds⟩ : Int))
    else Except.error PyErr.valueError
  | '+' :: ds =>
    if pyIsDigitStr ⟨ds⟩ then Except.ok ((digitsToNat ⟨ds⟩ : Int))
    else Except.error PyErr.valueError
  | _ =>
    if pyIsDigitStr (pyStrip s) then Except.ok ((digitsToNat (pyStrip s) : Int))
    else Except.error PyErr.valueError

/-- Python `int()` of a JSON value: numbers pass through, bools are 0/1,
strings are parsed, everything else raises `TypeError`. -/
def pyIntOfJson : Json → Except PyErr Int
  | Json.num n => Except.ok n
  | Json.bool b => Except.ok (if b then 1 else 0)
  | Json.str s => pyIntOfStr s
  | _ => Except.error PyErr.typeError

/-- Tail of `max(streams, key=lambda x: int(x.get("height", 0)))`: keys
are computed per element, a strictly greater key replaces the current
maximum, so the first-seen maximum wins. -/
def pyMaxGo : List Json → Json → Int → Except PyErr Json
  | [], bestItem, _ => Except.ok bestItem
  | x :: xs, bestItem, bestKey => do
    let d ← pyGetDefault x "height" (Json.num 0)
    let k ← pyIntOfJson d
    if bestKey < k then pyMaxGo xs x k else pyMaxGo xs bestItem bestKey

/-- `max(streams, key=lambda x: int(x.get("height", 0)))`
(`vimeo_downloader.py` line 192); `max` of an empty sequence raises
`ValueError`. -/
def pyMaxByHeight : List Json → Except PyErr Json
  | [] => Except.error PyErr.valueError
  | x :: xs => do
    let d ← pyGetDefault x "height" (Json.num 0)
    let k ← pyIntOfJson d
    pyMaxGo xs x k

/-- `VimeoDownloaderCLI.download_video` as a request trace
(`vimeo_dl_cli.py` lines 44-162): request 0 is the vimeo.com video page
(all its failures are caught and ignored), request 1 the configuration
endpoint (`raise_for_status`, then `.json()`), and on success of the
pure phase (title, `extract_streams`, quality selection,
`selected_stream['url']`) request 2 downloads the stream.  There is no
retry anywhere: the first config failure returns `False`. -/
def cliRun (quality : String) (o : Nat → Resp) : List ReqKind × Outcome :=
  if rfsFails (o 1) then ([ReqKind.page, ReqKind.config], Outcome.failed)
  else
    match (o 1).body with
    | none => ([ReqKind.page, ReqKind.config], Outcome.failed)
    | some cfg =>
      match extractStreamsCLI cfg with
      | Except.error _ => ([ReqKind.page, ReqKind.config], Outcome.crashed)
      | Except.ok streams =>
        if streams.isEmpty then ([ReqKind.page, ReqKind.config], Outcome.failed)
        else
          match cliSelect streams quality with
          | Except.error _ => ([ReqKind.page, ReqKind.config], Outcome.crashed)
          | Except.ok none => ([ReqKind.page, ReqKind.config], Outcome.failed)
          | Except.ok (some st) =>
            match pyGetItem st "url" with
            | Except.error _ => ([ReqKind.page, ReqKind.config], Outcome.crashed)
            | Except.ok _ =>
              ([ReqKind.page, ReqKind.config, ReqKind.download],
               if rfsFails (o 2) then Outcome.failed else Outcome.ok)

/-- Post-configuration phase of the GUI `download_video`
(`vimeo_downloader.py` lines 172-222): JSON parse, `extract_streams`,
`max` by `int(height)`, `best_stream.get("url")` truthiness, the save
dialog (`savePick` false models the user cancelling it), then one
download request; every exception in this region is caught by the inner
handler and only reported. -/
def guiPost (savePick : Bool) (o : Nat → Resp) (n : Nat) (tr : List ReqKind)
    (r : Resp) : List ReqKind × Outcome :=
  match r.body with
  | none => (tr, Outcome.failed)
  | some cfg =>
    match extractStreamsGUI cfg with
    | Except.error _ => (tr, Outcome.failed)
    | Except.ok streams =>
      if streams.isEmpty then (tr, Outcome.failed)
      else
        match pyMaxByHeight streams with
        | Except.error _ => (tr, Outcome.failed)
        | Except.ok best =>
          match pyGetDefault best "url" Json.null with
          | Except.error _ => (tr, Outcome.failed)
          | Except.ok u =>
            if pyTruthy u then
              if savePick then
                (tr ++ [ReqKind.download],
                 if rfsFails (o n) then Outcome.failed else Outcome.ok)
              else (tr, Outcome.failed)
            else (tr, Outcome.failed)

/-- `VimeoDownloader.download_video` as a request trace
(`vimeo_downloader.py` lines 113-225): the video page (a transport
error aborts, a bad status only warns), the configuration request, and
- only when that response has status ≠ 200 - the embed-page warm-up
followed by exactly one config retry, whose own non-200 status is
fatal; then the post phase. -/
def guiRun (savePick : Bool) (o : Nat → Resp) : List ReqKind × Outcome :=
  if (o 0).raised then ([ReqKind.page], Outcome.failed)
  else if (o 1).raised then ([ReqKind.page, ReqKind.config], Outcome.failed)
  else if (o 1).status != 200 then
    if (o 2).raised then
      ([ReqKind.page, ReqKind.config, ReqKind.embed], Outcome.failed)
    else if (o 3).raised then
      ([ReqKind.page, ReqKind.config, ReqKind.embed, ReqKind.config], Outcome.failed)
    else if (o 3).status != 200 then
      ([ReqKind.page, ReqKind.config, ReqKind.embed, ReqKind.config], Outcome.failed)
    else
      guiPost savePick o 4
        [ReqKind.page, ReqKind.config, ReqKind.embed, ReqKind.config] (o 3)
  else guiPost savePick o 2 [ReqKind.page, ReqKind.config] (o 1)

theorem guiPost_trace (savePick : Bool) (o : Nat → Resp) (n : Nat)
    (tr : List ReqKind) (r : Resp) :
    (guiPost savePick o n tr r).1 = tr ∨
    (guiPost savePick o n tr r).1 = tr ++ [ReqKind.download] := by
  unfold guiPost
  repeat' split
  all_goals simp

theorem cliRun_trace (quality : String) (o : Nat → Resp) :
    (cliRun quality o).1 = [ReqKind.page, ReqKind.config] ∨
    (cliRun quality o).1 = [ReqKind.page, ReqKind.config, ReqKind.download] := by
  unfold cliRun
  repeat' split
  all_goals simp

theorem guiRun_trace (savePick : Bool) (o : Nat → Resp) :
    (guiRun savePick o).1 = [ReqKind.page] ∨
    (guiRun savePick o).1 = [ReqKind.page, ReqKind.config] ∨
    (guiRun savePick o).1 = [ReqKind.page, ReqKind.config, ReqKind.download] ∨
    (guiRun savePick o).1 = [ReqKind.page, ReqKind.config, ReqKind.embed] ∨
    (guiRun savePick o).1 =
      [ReqKind.page, ReqKind.config, ReqKind.embed, ReqKind.config] ∨
    (guiRun savePick o).1 =
      [ReqKind.page, ReqKind.config, ReqKind.embed, ReqKind.config, ReqKind.download] := by
  unfold guiRun
  split_ifs <;>
    first
    | decide
    | (rcases guiPost_trace savePick o 4
          [ReqKind.page, ReqKind.config, ReqKind.embed, ReqKind.config] (o 3) with h | h <;>
        rw [h] <;> decide)
    | (rcases guiPost_trace savePick o 2 [ReqKind.page, ReqKind.config] (o 1) with h | h <;>
        rw [h] <;> decide)

/-- C7 counterexample: on a session whose configuration endpoint answers
HTTP 500, the CLI orchestration issues exactly one config request and
returns `False` with no embed-page visit and no retry, while the GUI on
the same responses performs the single embed-page warm-up and config
retry before failing. -/
theorem claim_C7_counterexample :
    cliRun "best" (fun _ => ⟨false, 500, none⟩) =
      ([ReqKind.page, ReqKind.config], Outcome.failed) ∧
    guiRun true (fun _ => ⟨false, 500, none⟩) =
      ([ReqKind.page, ReqKind.config, ReqKind.embed, ReqKind.config], Outcome.failed) :=
  ⟨rfl, rfl⟩

/-- C7 (amended): in every run of the GUI orchestration the
configuration endpoint is requested at most twice, the second request
occurring only immediately after the embed-page visit (the config/embed
subtrace is a prefix of `[config, embed, config]`), and no other
request kind is issued more than once; the CLI orchestration, also
cited, has no retry at all - it requests the configuration endpoint at
most once and never touches the embed page (see the counterexample,
which also shows the second GUI failure being fatal). -/
theorem claim_C7_config_retry (quality : String) (savePick : Bool) (o : Nat → Resp) :
    (guiRun savePick o).1.filter
        (fun r => r == ReqKind.config || r == ReqKind.embed) <+:
      [ReqKind.config, ReqKind.embed, ReqKind.config] ∧
    (guiRun savePick o).1.count ReqKind.page ≤ 1 ∧
    (guiRun savePick o).1.count ReqKind.download ≤ 1 ∧
    (cliRun quality o).1.count ReqKind.config ≤ 1 ∧
    (cliRun quality o).1.count ReqKind.embed = 0 := by
  obtain h1 | h1 | h1 | h1 | h1 | h1 := guiRun_trace savePick o <;>
    obtain h2 | h2 := cliRun_trace quality o <;>
      rw [h1, h2] <;> decide
